import Mathlib

/-!
Verification development for the kwok resource-synchronization and
dependency-ordered materialization subsystem.

Shallow embedding of:
* `pkg/kwokctl/snapshot/load.go` — the dependency-ordered loader
  (`loader.Load`, `loader.load`, `loader.filter`, `loader.apply`,
  `loader.hasAllOwnerReferences`, `loader.updateOwnerReferences`,
  `uniqueKeyFromOwnerReference`, `uniqueKeyFromMetadata`);
* `pkg/config/resources/dynamic.go` — the versioned cache
  (`dynamicGetter.Start`, `dynamicGetter.Get`,
  `dynamicGetter.updateAndReturn`).

Go maps are embedded as association lists (the loader creates each map
entry at most once per key, and lookups/inserts/deletes act on the first
matching entry).  Machine-level concerns do not arise; all values are
strings and lists.  The write client and REST mapper are external
collaborators; their per-call outcomes are supplied by an oracle
`Env : Nat → ApplyOutcome` indexed by the number of apply invocations
performed so far, which lets theorems quantify over every possible
sequence of remote outcomes.

The embedding stores queue entries by value.  The Go code shares one
pointer between all queues holding the same decoded object; the two can
differ only when a queued object is mutated while still queued under
another key, a corner none of the stated properties reaches.
-/

namespace KwokLoad

/-- Owner reference, as in `metav1.OwnerReference`: the fields the loader
reads (`APIVersion`, `Kind`, `Name`, `UID`). -/
structure OwnerReference where
  apiVersion : String
  kind : String
  name : String
  uid : String
deriving DecidableEq, Repr

/-- Tracked object: the fields of an `unstructured.Unstructured` that the
loader reads or writes (`apiVersion`, `kind`, `metadata.name`,
`metadata.namespace`, `metadata.uid`, `metadata.ownerReferences`). -/
structure Obj where
  apiVersion : String
  kind : String
  name : String
  ns : String
  uid : String
  ownerReferences : List OwnerReference
deriving DecidableEq, Repr

/-- Embeds `uniqueKey` from load.go: the tuple `(APIVersion, Kind, Name, UID)`. -/
structure UniqueKey where
  apiVersion : String
  kind : String
  name : String
  uid : String
deriving DecidableEq, Repr

/-- Group of an apiVersion string, as in `schema.FromAPIVersionAndKind` /
`schema.ParseGroupVersion`: with exactly one slash the group is the part
before it (`"g/v"` has group `"g"`); with no slash the string is a bare
version and the group is empty; anything else is rejected to the empty
group. -/
def apiGroup (apiVersion : String) : String :=
  let cs := apiVersion.toList
  if cs.count '/' = 1 then (cs.takeWhile fun c => c ≠ '/').asString else ""

/-- Embeds `schema.GroupKind`. -/
structure GroupKind where
  group : String
  kind : String
deriving DecidableEq, Repr

/-- Embeds `obj.GroupVersionKind().GroupKind()`. -/
def Obj.groupKind (o : Obj) : GroupKind :=
  ⟨apiGroup o.apiVersion, o.kind⟩

/-- Embeds `uniqueKeyFromOwnerReference` from load.go. -/
def uniqueKeyFromOwnerReference (r : OwnerReference) : UniqueKey :=
  ⟨r.apiVersion, r.kind, r.name, r.uid⟩

/-- Embeds `uniqueKeyFromMetadata` from load.go. -/
def uniqueKeyFromMetadata (o : Obj) : UniqueKey :=
  ⟨o.apiVersion, o.kind, o.name, o.uid⟩

/-- Lookup in a Go map embedded as an association list. -/
def lookupA {α : Type} : List (UniqueKey × α) → UniqueKey → Option α
  | [], _ => none
  | (k', v) :: rest, k => if k' = k then some v else lookupA rest k

/-- Go map assignment `m[k] = v` on an association list. -/
def insertA {α : Type} : List (UniqueKey × α) → UniqueKey → α → List (UniqueKey × α)
  | [], k, v => [(k, v)]
  | (k', v') :: rest, k, v =>
    if k' = k then (k, v) :: rest else (k', v') :: insertA rest k v

/-- Go `m[k] = append(m[k], o)` on the pending map. -/
def appendAt : List (UniqueKey × List Obj) → UniqueKey → Obj → List (UniqueKey × List Obj)
  | [], k, o => [(k, [o])]
  | (k', os) :: rest, k, o =>
    if k' = k then (k', os ++ [o]) :: rest else (k', os) :: appendAt rest k o

/-- Go `delete(m, k)` on the pending map. -/
def eraseA : List (UniqueKey × List Obj) → UniqueKey → List (UniqueKey × List Obj)
  | [], _ => []
  | (k', os) :: rest, k => if k' = k then rest else (k', os) :: eraseA rest k

/-- Loader state: the mutable fields of `loader` (`filterMap`, `exist`,
`pending`), plus a counter of apply invocations used to index the
outcome oracle. -/
structure LoaderState where
  filterMap : List GroupKind
  exist : List (UniqueKey × String)
  pending : List (UniqueKey × List Obj)
  applyCount : Nat
deriving DecidableEq, Repr

/-- Membership of an object's GroupKind in a filter set. -/
def filterChk (fm : List GroupKind) (o : Obj) : Bool :=
  fm.contains o.groupKind

/-- Embeds `loader.filter`: membership of the object's GroupKind in `filterMap`. -/
def filterB (s : LoaderState) (o : Obj) : Bool :=
  filterChk s.filterMap o

/-- Embeds `loader.hasAllOwnerReferences`: every owner-reference key is present
in `exist` (vacuously true with no owner references). -/
def hasAllOwnerReferences (exist : List (UniqueKey × String)) (o : Obj) : Bool :=
  o.ownerReferences.all fun r => (lookupA exist (uniqueKeyFromOwnerReference r)).isSome

/-- Embeds `loader.updateOwnerReferences`: rewrite each owner reference whose key
is resolved in `exist` to the newly assigned UID. -/
def updateOwnerReferences (exist : List (UniqueKey × String)) (o : Obj) : Obj :=
  { o with ownerReferences := o.ownerReferences.map fun r =>
      match lookupA exist (uniqueKeyFromOwnerReference r) with
      | some uid => { r with uid := uid }
      | none => r }

/-- Modelled from the spec: `clearUnstructured` (called by `loader.apply`,
defined outside the extracted sources) strips target-irrelevant metadata —
the existing identifier, resource version, creation timestamp and managed
status — so the object is submitted as a fresh creation.  Of those fields
only the identifier is part of the embedded object. -/
def clearObj (o : Obj) : Obj :=
  { o with uid := "" }

/-- Outcome of one `loader.apply` invocation, as decided by the external
REST mapper and write client: the mapper can fail; otherwise Create is
called and either succeeds, fails with AlreadyExists (after which Update
is called and either succeeds, fails with Conflict, or fails otherwise),
or fails otherwise. -/
inductive ApplyOutcome where
  | mapperError
  | createOk (uid : String)
  | createError
  | alreadyExistsThenUpdateOk (uid : String)
  | alreadyExistsThenConflict
  | alreadyExistsThenUpdateError
deriving DecidableEq, Repr

/-- Oracle giving the outcome of the n-th apply invocation. -/
def Env : Type := Nat → ApplyOutcome

/-- Observable events of one load, mirroring the loader's write-client
calls and diagnostics.  `src` is the object as held by the loader when
the event fires (before clearing); `sent` is the cleared object actually
passed to the write client. -/
inductive Event where
  | skippedFiltered (src : Obj)
  | resolveError (src : Obj)
  | createAttempt (src sent : Obj)
  | updateAttempt (src sent : Obj)
  | createdObj (src : Obj) (uid : String)
  | updatedObj (src : Obj) (uid : String)
  | conflictSkipped (src : Obj)
  | errorSkipped (src : Obj)
  | skippedMissingOwner (src : Obj)
deriving DecidableEq, Repr

/-- Embeds `loader.apply`: resolve the REST mapping (failure abandons the object
with an error diagnostic and no write-client call), clear the object,
attempt Create, on AlreadyExists attempt Update, on Update Conflict warn
and abandon, on any other failure log an error and abandon.  Returns the
UID of the server's returned object on success. -/
def applyModel (env : Env) (cnt : Nat) (src o : Obj) : Option String × List Event :=
  match env cnt with
  | .mapperError => (none, [.resolveError src])
  | .createOk uid =>
    (some uid, [.createAttempt src (clearObj o), .createdObj src uid])
  | .createError =>
    (none, [.createAttempt src (clearObj o), .errorSkipped src])
  | .alreadyExistsThenUpdateOk uid =>
    (some uid, [.createAttempt src (clearObj o), .updateAttempt src (clearObj o),
      .updatedObj src uid])
  | .alreadyExistsThenConflict =>
    (none, [.createAttempt src (clearObj o), .updateAttempt src (clearObj o),
      .conflictSkipped src])
  | .alreadyExistsThenUpdateError =>
    (none, [.createAttempt src (clearObj o), .updateAttempt src (clearObj o),
      .errorSkipped src])

/-- The pending-queue scan of `loader.load`: for each object queued under
the newly resolved key, if it has exactly one owner reference or all its
owner references are resolved, rewrite its owner references, apply it,
and on success record its post-clear metadata key in `exist`. -/
def cascadeFold (env : Env) : List Obj → LoaderState → LoaderState × List Event
  | [], s => (s, [])
  | p :: rest, s =>
    if p.ownerReferences.length == 1 || hasAllOwnerReferences s.exist p then
      let p' := updateOwnerReferences s.exist p
      let ar := applyModel env s.applyCount p p'
      let s1 : LoaderState := { s with applyCount := s.applyCount + 1 }
      let s2 : LoaderState :=
        match ar.1 with
        | some uid =>
          { s1 with exist := insertA s1.exist (uniqueKeyFromMetadata (clearObj p')) uid }
        | none => s1
      let tail := cascadeFold env rest s2
      (tail.1, ar.2 ++ tail.2)
    else cascadeFold env rest s

/-- The apply-and-cascade tail of `loader.load`: apply the (already
rewritten) object; on success record its post-clear metadata key, scan
the pending queue under that key, and delete that queue entry. -/
def applyPhase (env : Env) (s : LoaderState) (src o : Obj) : LoaderState × List Event :=
  let ar := applyModel env s.applyCount src o
  let s1 : LoaderState := { s with applyCount := s.applyCount + 1 }
  match ar.1 with
  | none => (s1, ar.2)
  | some uid =>
    let key := uniqueKeyFromMetadata (clearObj o)
    let s2 : LoaderState := { s1 with exist := insertA s1.exist key uid }
    match lookupA s2.pending key with
    | none => (s2, ar.2)
    | some pendingObjs =>
      let tail := cascadeFold env pendingObjs s2
      ({ tail.1 with pending := eraseA tail.1.pending key }, ar.2 ++ tail.2)

/-- Embeds `loader.load`: if the object has owner references, queue it under every
unresolved owner key and defer it when any owner is unresolved; otherwise
rewrite its owner references and fall through to apply-and-cascade. -/
def loadObj (env : Env) (s : LoaderState) (o : Obj) : LoaderState × List Event :=
  if o.ownerReferences.isEmpty then
    applyPhase env s o o
  else
    let missing := o.ownerReferences.filter
      fun r => (lookupA s.exist (uniqueKeyFromOwnerReference r)).isNone
    if missing.isEmpty then
      applyPhase env s o (updateOwnerReferences s.exist o)
    else
      ({ s with pending :=
          missing.foldl (fun p r => appendAt p (uniqueKeyFromOwnerReference r) o) s.pending },
       [])

/-- One document of the input stream: a decodable object or a malformed
document (at which the streaming decoder fails). -/
inductive Doc where
  | obj (o : Obj)
  | malformed
deriving DecidableEq, Repr

/-- The decode callback loop of `loader.Load`: filter each decoded object
(skipped objects produce only a diagnostic) and hand the rest to
`loader.load`; the first malformed document aborts with the decode
error. -/
def processDocs (env : Env) : List Doc → LoaderState → Except String (LoaderState × List Event)
  | [], s => .ok (s, [])
  | .malformed :: _, _ => .error "failed to decode objects"
  | .obj o :: rest, s =>
    if filterB s o then
      let lr := loadObj env s o
      match processDocs env rest lr.1 with
      | .ok p => .ok (p.1, lr.2 ++ p.2)
      | .error e => .error e
    else
      match processDocs env rest s with
      | .ok p => .ok (p.1, Event.skippedFiltered o :: p.2)
      | .error e => .error e

/-- The end-of-load report of `loader.Load`: every object still in the
pending map is reported as skipped with a missing owner. -/
def reportEvents (pending : List (UniqueKey × List Obj)) : List Event :=
  pending.flatMap fun kv => kv.2.map Event.skippedMissingOwner

/-- Embeds `loader.Load`: run the decode loop, then emit the missing-owner
report.  A decode error is returned; per-object failures are not. -/
def runLoad (env : Env) (docs : List Doc) (s : LoaderState) :
    Except String (LoaderState × List Event) :=
  match processDocs env docs s with
  | .error e => .error e
  | .ok p => .ok (p.1, p.2 ++ reportEvents p.1.pending)

/-- The state of a fresh loader (`newLoader`): empty `exist` and `pending`
maps and the filter set derived from the requested resource types. -/
def initState (fm : List GroupKind) : LoaderState :=
  ⟨fm, [], [], 0⟩

/-- Executor of a malformed-free stream, used to reason by induction; it
agrees with `processDocs` on streams of well-formed documents. -/
def processObjs (env : Env) : List Obj → LoaderState → LoaderState × List Event
  | [], s => (s, [])
  | o :: rest, s =>
    if filterB s o then
      let lr := loadObj env s o
      let tail := processObjs env rest lr.1
      (tail.1, lr.2 ++ tail.2)
    else
      let tail := processObjs env rest s
      (tail.1, Event.skippedFiltered o :: tail.2)

/-- Executor form of `runLoad` on a malformed-free stream. -/
def runLoadObjs (env : Env) (objs : List Obj) (s : LoaderState) :
    LoaderState × List Event :=
  let pr := processObjs env objs s
  (pr.1, pr.2 ++ reportEvents pr.1.pending)

/-- Keys of an embedded Go map. -/
def keysOf {α : Type} (m : List (UniqueKey × α)) : List UniqueKey :=
  m.map Prod.fst

/-- All objects queued anywhere in the pending map. -/
def objsOf (p : List (UniqueKey × List Obj)) : List Obj :=
  p.flatMap Prod.snd

/-- The queue stored under one key of the pending map. -/
def listAt (p : List (UniqueKey × List Obj)) (k : UniqueKey) : List Obj :=
  (lookupA p k).getD []

/-- Whether the event is a write-client submission whose source is `o`. -/
def submitsSrc (o : Obj) : Event → Bool
  | .createAttempt x _ => x = o
  | .updateAttempt x _ => x = o
  | _ => false

/-- Whether the event passes `o` to the write client in either role. -/
def involvesObj (o : Obj) : Event → Bool
  | .createAttempt x y => x = o || y = o
  | .updateAttempt x y => x = o || y = o
  | _ => false

/-- Whether the event is a Create call on the write client. -/
def isCreateAttempt : Event → Bool
  | .createAttempt _ _ => true
  | _ => false

/-- Whether the event is an Update call on the write client. -/
def isUpdateAttempt : Event → Bool
  | .updateAttempt _ _ => true
  | _ => false

/-- Source objects of the write-client submissions, in order. -/
def attemptSrcs (evs : List Event) : List Obj :=
  evs.filterMap fun e =>
    match e with
    | .createAttempt src _ => some src
    | .updateAttempt src _ => some src
    | _ => none

/-- Keys recorded into `exist` by the successful applies among the
events (the post-clear metadata key of each applied source object). -/
def appliedKeys (evs : List Event) : List UniqueKey :=
  evs.filterMap fun e =>
    match e with
    | .createdObj src _ => some (uniqueKeyFromMetadata (clearObj src))
    | .updatedObj src _ => some (uniqueKeyFromMetadata (clearObj src))
    | _ => none

/-- Every queue of the pending map is stored under a key that is an
owner-reference key of each object queued in it. -/
def PendingOwnersKeyed (p : List (UniqueKey × List Obj)) : Prop :=
  ∀ kv ∈ p, ∀ q ∈ kv.2,
    kv.1 ∈ q.ownerReferences.map uniqueKeyFromOwnerReference

/-- Every write-client submission among the events has all of its source
object's owner-reference keys present in the given exist map. -/
def AttemptsResolved (exist : List (UniqueKey × String)) (evs : List Event) : Prop :=
  ∀ e ∈ evs, ∀ q, submitsSrc q e = true →
    ∀ r ∈ q.ownerReferences,
      (lookupA exist (uniqueKeyFromOwnerReference r)).isSome = true

/-- Every object queued in the pending map passes the filter. -/
def PendingFiltered (fm : List GroupKind) (p : List (UniqueKey × List Obj)) : Prop :=
  ∀ q ∈ objsOf p, filterChk fm q = true

/-- Every write-client call among the events passes only objects whose
GroupKind is in the filter set. -/
def AttemptsFiltered (fm : List GroupKind) (evs : List Event) : Prop :=
  ∀ e ∈ evs, ∀ q, involvesObj q e = true → filterChk fm q = true

/-- The binding `(k, v)` is justified by a successful create or update
among the events: some applied source object was recorded under `k` with
newly assigned identifier `v`. -/
def BindingFromEvents (evs : List Event) (k : UniqueKey) (v : String) : Prop :=
  ∃ src, (Event.createdObj src v ∈ evs ∨ Event.updatedObj src v ∈ evs) ∧
    uniqueKeyFromMetadata (clearObj src) = k


/-- Dependency-chain input: `c1A` has no owners, `c1B` owns a reference
to `c1A`, `c1C` owns a reference to `c1B`; all three kinds are in the
filter set and every create succeeds with a fresh identifier. -/
def c1refA : OwnerReference := ⟨"v1", "KA", "a", ""⟩

/-- Owner reference of `c1C`, pointing at `c1B`. -/
def c1refB : OwnerReference := ⟨"v1", "KB", "b", ""⟩

/-- Chain object A: no owner references. -/
def c1A : Obj := ⟨"v1", "KA", "a", "", "", []⟩

/-- Chain object B: one owner reference to A. -/
def c1B : Obj := ⟨"v1", "KB", "b", "", "", [c1refA]⟩

/-- Chain object C: one owner reference to B. -/
def c1C : Obj := ⟨"v1", "KC", "c", "", "", [c1refB]⟩

/-- Filter set that admits all three chain kinds. -/
def c1fm : List GroupKind := [⟨"", "KA"⟩, ⟨"", "KB"⟩, ⟨"", "KC"⟩]

/-- Oracle under which every create succeeds, assigning `uid<n>` to the
n-th submission. -/
def c1env : Env := fun n => .createOk ("uid" ++ toString n)

/-- The object the write client receives for B: owner identifier
rewritten to A's newly assigned identifier `uid0`. -/
def c1Bsent : Obj := ⟨"v1", "KB", "b", "", "", [⟨"v1", "KA", "a", "uid0"⟩]⟩

/-- The chain run: stream decoded in the order C, B, A. -/
def c1run : LoaderState × List Event :=
  runLoadObjs c1env [c1C, c1B, c1A] (initState c1fm)

/-- First owner reference of the two-owner object, never resolved. -/
def c8r1 : OwnerReference := ⟨"v1", "KO", "o1", "u1"⟩

/-- Second owner reference of the two-owner object, never resolved. -/
def c8r2 : OwnerReference := ⟨"v1", "KO", "o2", "u2"⟩

/-- An object with two owner references neither of which ever appears. -/
def c8X : Obj := ⟨"v1", "KX", "x", "", "ux", [c8r1, c8r2]⟩

/-- Filter set that admits the two-owner object's kind. -/
def c8fm : List GroupKind := [⟨"", "KX"⟩]

/-- Oracle for the unresolved-owner runs (never consulted). -/
def c8env : Env := fun _ => .createOk "unused"

/-- Run of the single-object stream containing the two-owner object. -/
def c8run : LoaderState × List Event := runLoadObjs c8env [c8X] (initState c8fm)

/-- Single never-resolved owner reference for the amended-claim witness. -/
def c8wr : OwnerReference := ⟨"v1", "KO", "o1", "u1"⟩

/-- Single-owner object whose owner never appears. -/
def c8wX : Obj := ⟨"v1", "KW", "w", "", "uw", [c8wr]⟩

/-- Filter set that admits the single-owner object's kind. -/
def c8wfm : List GroupKind := [⟨"", "KW"⟩]

/-- Run of the single-object stream containing the single-owner object. -/
def c8wrun : LoaderState × List Event := runLoadObjs c8env [c8wX] (initState c8wfm)

/-- Filter set that admits only kind `KA`. -/
def c5fm : List GroupKind := [⟨"", "KA"⟩]

/-- An object of kind `KB`, outside the filter set. -/
def c5o : Obj := ⟨"v1", "KB", "b", "", "", []⟩

/-- Oracle under which every create would succeed. -/
def c5env : Env := fun _ => .createOk "u"

/-- A source object used to exercise the apply contract. -/
def c6src : Obj := ⟨"v1", "KA", "a", "", "ua", []⟩

/-- Oracle whose every apply hits an update conflict. -/
def c6envConflict : Env := fun _ => .alreadyExistsThenConflict

/-- Oracle whose every apply fails at create with a non-AlreadyExists
error. -/
def c6envError : Env := fun _ => .createError

/-- Owner object for the not-ready-dependent scenario: no owners. -/
def c9w : Obj := ⟨"v1", "KW", "w", "", "", []⟩

/-- Second, never-resolved owner reference of the dependent. -/
def c9r2 : OwnerReference := ⟨"v1", "KZ", "z", "uz"⟩

/-- Dependent with two owner references: one to the owner object, one
never resolved. -/
def c9dep : Obj := ⟨"v1", "KD", "d", "", "ud", [⟨"v1", "KW", "w", ""⟩, c9r2]⟩

/-- Oracle under which the owner's create succeeds. -/
def c9env : Env := fun _ => .createOk "u9"

/-- Loader state with the dependent queued under the owner's key. -/
def c9s : LoaderState :=
  ⟨[⟨"", "KW"⟩, ⟨"", "KD"⟩], [], [(⟨"v1", "KW", "w", ""⟩, [c9dep])], 0⟩

/-- A single owner-less object for the append-only witness run. -/
def c10A : Obj := ⟨"v1", "KA", "a", "", "", []⟩

/-- Oracle assigning identifier `uidA` on create. -/
def c10env : Env := fun _ => .createOk "uidA"

/-- Filter set that admits kind `KA`. -/
def c10fm : List GroupKind := [⟨"", "KA"⟩]

/-- Run of the single-object stream for the append-only witness. -/
def c10run : LoaderState × List Event :=
  runLoadObjs c10env [c10A] (initState c10fm)

end KwokLoad

namespace KwokDyn

/-- The lock-protected fields of `dynamicGetter` (`currentVer`, `data`)
together with the informer's local mirror (`store`). -/
structure GetterState (T O : Type) where
  currentVer : String
  data : O
  store : List T
deriving Repr

/-- Embeds `dynamicGetter.updateAndReturn`: under the exclusive lock, re-check the
version; if still stale, list the mirror, run the conversion function
once, store the new derived value and version.  The third component
records whether the conversion function ran. -/
def updateAndReturn {T O : Type} (convert : List T → O) (latestVer : String)
    (s : GetterState T O) : O × GetterState T O × Bool :=
  if latestVer = s.currentVer then
    (s.data, s, false)
  else
    let data := convert s.store
    (data, { s with data := data, currentVer := latestVer }, true)

/-- Embeds `dynamicGetter.Get`: read the feed's last-observed version, compare it
with the cached version under the read lock, and return the cached value
on a match; otherwise fall into `updateAndReturn`.  `interfere` is the
state mutation other threads may perform between the read-lock release
and the write-lock acquisition. -/
def getOp {T O : Type} (convert : List T → O) (latestVer : String)
    (interfere : GetterState T O → GetterState T O)
    (s : GetterState T O) : O × GetterState T O × Bool :=
  if latestVer = s.currentVer then
    (s.data, s, false)
  else
    updateAndReturn convert latestVer (interfere s)

/-- N slow-path `Get` calls that all observed the same version token and
serialize through the write lock: each in turn executes
`updateAndReturn`.  Returns the final state and how many of the calls
ran the conversion function. -/
def raceGets {T O : Type} (convert : List T → O) (latestVer : String) :
    Nat → GetterState T O → GetterState T O × Nat
  | 0, s => (s, 0)
  | n + 1, s =>
    let u := updateAndReturn convert latestVer s
    let tail := raceGets convert latestVer n u.2.1
    (tail.1, (if u.2.2 then 1 else 0) + tail.2)

/-- Modelled from the consumed client-go contract: `Resync` of the
`cache.Store` returned by `cache.NewInformer` performs no work and
always returns nil (it is documented as a no-op for this store); it does
not wait for, or report failure of, the informer's synchronization. -/
def storeResync : Except String Unit := .ok ()

/-- State of the world around one dynamic getter: the version token the
background informer has observed so far and the getter state.  The
informer runs in a background goroutine started by `Start`. -/
structure CacheWorld (T O : Type) where
  lastSyncVer : String
  gs : GetterState T O
deriving Repr

/-- Embeds `dynamicGetter.Start`: build the informer over the syncer's list/watch,
start its run loop in a background goroutine (no step of it has executed
when `Start` returns), and return the store's `Resync` result.  The Go
zero values of the getter's fields are the empty version token, the zero
derived value `zeroData`, and an empty mirror. -/
def startModel {T O : Type} (zeroData : O) : Except String (CacheWorld T O) :=
  match storeResync with
  | .ok _ => .ok ⟨"", ⟨"", zeroData, []⟩⟩
  | .error e => .error e

/-- One scheduler step after `Start` returned: either the background
informer delivers its initial list (populating the mirror and advancing
the observed version), or a caller runs `Get`. -/
inductive CStep where
  | bg
  | get
deriving DecidableEq, Repr

/-- Run a schedule of background-sync and `Get` steps, collecting the
values returned by the `Get` calls in order. -/
def runSched {T O : Type} (convert : List T → O) (feed : List T) (ver : String) :
    List CStep → CacheWorld T O → List O × CacheWorld T O
  | [], w => ([], w)
  | .bg :: rest, w =>
    runSched convert feed ver rest ⟨ver, { w.gs with store := feed }⟩
  | .get :: rest, w =>
    let g := getOp convert w.lastSyncVer id w.gs
    let tail := runSched convert feed ver rest ⟨w.lastSyncVer, g.2.1⟩
    (g.1 :: tail.1, tail.2)

end KwokDyn

namespace KwokLoad

theorem lookupA_insertA {α : Type} (m : List (UniqueKey × α)) (k : UniqueKey) (v : α)
    (k' : UniqueKey) :
    lookupA (insertA m k v) k' = if k = k' then some v else lookupA m k' := by
  induction m with
  | nil =>
    by_cases h : k = k' <;> simp [insertA, lookupA, h]
  | cons kv rest ih =>
    obtain ⟨k0, v0⟩ := kv
    by_cases h0 : k0 = k
    · subst h0
      by_cases h : k0 = k' <;> simp [insertA, lookupA, h]
    · by_cases h : k0 = k'
      · subst h
        have hk : ¬ k = k0 := fun hh => h0 hh.symm
        simp [insertA, lookupA, h0, hk]
      · simp [insertA, lookupA, h0, h, ih]

theorem lookupA_appendAt (m : List (UniqueKey × List Obj)) (k : UniqueKey) (o : Obj)
    (k' : UniqueKey) :
    lookupA (appendAt m k o) k' =
      if k = k' then some (listAt m k ++ [o]) else lookupA m k' := by
  induction m with
  | nil =>
    by_cases h : k = k' <;> simp [appendAt, lookupA, listAt, h]
  | cons kv rest ih =>
    obtain ⟨k0, os⟩ := kv
    by_cases h0 : k0 = k
    · subst h0
      by_cases h : k0 = k' <;> simp [appendAt, lookupA, listAt, h]
    · by_cases h : k0 = k'
      · subst h
        have hk : ¬ k = k0 := fun hh => h0 hh.symm
        simp [appendAt, lookupA, listAt, h0, hk]
      · simp [appendAt, lookupA, listAt, h0, h, ih]

theorem lookupA_eraseA_ne (m : List (UniqueKey × List Obj)) (k k' : UniqueKey)
    (h : k ≠ k') :
    lookupA (eraseA m k) k' = lookupA m k' := by
  induction m with
  | nil => simp [eraseA]
  | cons kv rest ih =>
    obtain ⟨k0, os⟩ := kv
    by_cases h0 : k0 = k
    · subst h0
      have : ¬ k0 = k' := fun hh => h (hh ▸ rfl)
      simp [eraseA, lookupA, this]
    · simp [eraseA, lookupA, h0, ih]

theorem mem_of_lookupA {α : Type} {m : List (UniqueKey × α)} {k : UniqueKey} {v : α}
    (h : lookupA m k = some v) : (k, v) ∈ m := by
  induction m with
  | nil => simp [lookupA] at h
  | cons kv rest ih =>
    obtain ⟨k0, v0⟩ := kv
    by_cases h0 : k0 = k
    · subst h0
      simp [lookupA] at h
      subst h
      exact List.mem_cons_self _ _
    · simp [lookupA, h0] at h
      exact List.mem_cons_of_mem _ (ih h)

theorem objsOf_nil : objsOf [] = [] := rfl

theorem objsOf_cons (kv : UniqueKey × List Obj) (rest : List (UniqueKey × List Obj)) :
    objsOf (kv :: rest) = kv.2 ++ objsOf rest := rfl

theorem mem_objsOf_appendAt (m : List (UniqueKey × List Obj)) (k : UniqueKey) (o : Obj)
    (q : Obj) (h : q ∈ objsOf (appendAt m k o)) : q ∈ objsOf m ∨ q = o := by
  induction m with
  | nil =>
    have h1 : appendAt [] k o = [(k, [o])] := rfl
    rw [h1, objsOf_cons] at h
    simp [objsOf_nil] at h
    exact Or.inr h
  | cons kv rest ih =>
    obtain ⟨k0, os⟩ := kv
    by_cases h0 : k0 = k
    · have h1 : appendAt ((k0, os) :: rest) k o = (k0, os ++ [o]) :: rest := by
        simp [appendAt, h0]
      rw [h1, objsOf_cons] at h
      rw [objsOf_cons]
      simp only [List.mem_append] at h ⊢
      rcases h with (h | h) | h
      · exact Or.inl (Or.inl h)
      · simp at h; exact Or.inr h
      · exact Or.inl (Or.inr h)
    · have h1 : appendAt ((k0, os) :: rest) k o = (k0, os) :: appendAt rest k o := by
        simp [appendAt, h0]
      rw [h1, objsOf_cons] at h
      rw [objsOf_cons]
      simp only [List.mem_append] at h ⊢
      rcases h with h | h
      · exact Or.inl (Or.inl h)
      · rcases ih h with h2 | h2
        · exact Or.inl (Or.inr h2)
        · exact Or.inr h2

theorem mem_objsOf_eraseA (m : List (UniqueKey × List Obj)) (k : UniqueKey)
    (q : Obj) (h : q ∈ objsOf (eraseA m k)) : q ∈ objsOf m := by
  induction m with
  | nil => simpa [eraseA] using h
  | cons kv rest ih =>
    obtain ⟨k0, os⟩ := kv
    by_cases h0 : k0 = k
    · have h1 : eraseA ((k0, os) :: rest) k = rest := by simp [eraseA, h0]
      rw [h1] at h
      rw [objsOf_cons]
      exact List.mem_append.mpr (Or.inr h)
    · have h1 : eraseA ((k0, os) :: rest) k = (k0, os) :: eraseA rest k := by
        simp [eraseA, h0]
      rw [h1, objsOf_cons] at h
      rw [objsOf_cons]
      rcases List.mem_append.mp h with h | h
      · exact List.mem_append.mpr (Or.inl h)
      · exact List.mem_append.mpr (Or.inr (ih h))

theorem mem_objsOf_of_entry {m : List (UniqueKey × List Obj)} {k : UniqueKey}
    {os : List Obj} {q : Obj} (hm : (k, os) ∈ m) (h : q ∈ os) : q ∈ objsOf m := by
  induction m with
  | nil => simp at hm
  | cons kv rest ih =>
    rw [objsOf_cons]
    rcases List.mem_cons.mp hm with h2 | h2
    · rw [← h2]
      exact List.mem_append.mpr (Or.inl h)
    · exact List.mem_append.mpr (Or.inr (ih h2))

theorem mem_objsOf_of_listAt {m : List (UniqueKey × List Obj)} {k : UniqueKey} {q : Obj}
    (h : q ∈ listAt m k) : q ∈ objsOf m := by
  unfold listAt at h
  rcases hl : lookupA m k with _ | os
  · rw [hl] at h; simp at h
  · rw [hl] at h
    simp at h
    exact mem_objsOf_of_entry (mem_of_lookupA hl) h

theorem uniqueKey_clear_update (m : List (UniqueKey × String)) (o : Obj) :
    uniqueKeyFromMetadata (clearObj (updateOwnerReferences m o)) =
      uniqueKeyFromMetadata (clearObj o) := rfl

theorem filterChk_clearObj (fm : List GroupKind) (o : Obj) :
    filterChk fm (clearObj o) = filterChk fm o := rfl

theorem filterChk_update (fm : List GroupKind) (m : List (UniqueKey × String)) (o : Obj) :
    filterChk fm (updateOwnerReferences m o) = filterChk fm o := rfl

theorem applyModel_events_shape (env : Env) (cnt : Nat) (src o : Obj) :
    ∀ e ∈ (applyModel env cnt src o).2,
      e = .resolveError src ∨ e = .createAttempt src (clearObj o) ∨
      e = .updateAttempt src (clearObj o) ∨ (∃ uid, e = .createdObj src uid) ∨
      (∃ uid, e = .updatedObj src uid) ∨ e = .conflictSkipped src ∨
      e = .errorSkipped src := by
  intro e he
  rcases h : env cnt <;> simp [applyModel, h] at he <;> tauto

theorem applyModel_submitsSrc {env : Env} {cnt : Nat} {src o : Obj} {q : Obj} {e : Event}
    (he : e ∈ (applyModel env cnt src o).2) (hq : submitsSrc q e = true) : q = src := by
  rcases applyModel_events_shape env cnt src o e he with
    h | h | h | ⟨uid, h⟩ | ⟨uid, h⟩ | h | h <;>
    subst h <;> simp [submitsSrc] at hq <;> exact hq.symm

theorem applyModel_involvesObj {env : Env} {cnt : Nat} {src o : Obj} {q : Obj} {e : Event}
    (he : e ∈ (applyModel env cnt src o).2) (hq : involvesObj q e = true) :
    q = src ∨ q = clearObj o := by
  rcases applyModel_events_shape env cnt src o e he with
    h | h | h | ⟨uid, h⟩ | ⟨uid, h⟩ | h | h <;>
    subst h <;> simp [involvesObj] at hq
  · rcases hq with hq | hq
    · exact Or.inl hq.symm
    · exact Or.inr hq.symm
  · rcases hq with hq | hq
    · exact Or.inl hq.symm
    · exact Or.inr hq.symm

theorem applyModel_appliedKeys (env : Env) (cnt : Nat) (src o : Obj)
    (k : UniqueKey) (h : k ∈ appliedKeys (applyModel env cnt src o).2) :
    k = uniqueKeyFromMetadata (clearObj src) := by
  rcases h0 : env cnt <;> simp [applyModel, h0, appliedKeys] at h <;> exact h

theorem applyModel_res_some (env : Env) (cnt : Nat) (src o : Obj) (uid : String)
    (h : (applyModel env cnt src o).1 = some uid) :
    Event.createdObj src uid ∈ (applyModel env cnt src o).2 ∨
      Event.updatedObj src uid ∈ (applyModel env cnt src o).2 := by
  rcases h0 : env cnt <;> simp [applyModel, h0] at h ⊢ <;> exact h.symm

theorem cascadeFold_state (env : Env) (ps : List Obj) (s : LoaderState) :
    (cascadeFold env ps s).1.filterMap = s.filterMap ∧
    (cascadeFold env ps s).1.pending = s.pending ∧
    ∀ k, (lookupA s.exist k).isSome = true →
      (lookupA (cascadeFold env ps s).1.exist k).isSome = true := by
  induction ps generalizing s with
  | nil => exact ⟨rfl, rfl, fun k h => h⟩
  | cons p rest ih =>
    by_cases hc : (p.ownerReferences.length == 1 || hasAllOwnerReferences s.exist p) = true
    · rcases h1 : (applyModel env s.applyCount p (updateOwnerReferences s.exist p)).1 with
        _ | uid
      · simp only [cascadeFold, hc, if_true, h1]
        exact ih _
      · simp only [cascadeFold, hc, if_true, h1]
        refine ⟨(ih _).1, (ih _).2.1, fun k h => ?_⟩
        refine (ih _).2.2 k ?_
        rw [lookupA_insertA]
        by_cases hk :
            uniqueKeyFromMetadata (clearObj (updateOwnerReferences s.exist p)) = k <;>
          simp [hk, h]
    · simp only [cascadeFold, hc, if_false]
      exact ih _

theorem applyPhase_state (env : Env) (s : LoaderState) (src o : Obj) :
    (applyPhase env s src o).1.filterMap = s.filterMap ∧
    ∀ k, (lookupA s.exist k).isSome = true →
      (lookupA (applyPhase env s src o).1.exist k).isSome = true := by
  rcases h1 : (applyModel env s.applyCount src o).1 with _ | uid
  · simp only [applyPhase, h1]
    exact ⟨by trivial, fun k h => h⟩
  · rcases h2 : lookupA s.pending (uniqueKeyFromMetadata (clearObj o)) with _ | ps
    · simp only [applyPhase, h1, h2]
      refine ⟨by trivial, fun k h => ?_⟩
      rw [lookupA_insertA]
      by_cases hk : uniqueKeyFromMetadata (clearObj o) = k <;> simp [hk, h]
    · simp only [applyPhase, h1, h2]
      refine ⟨(cascadeFold_state env ps _).1, fun k h => ?_⟩
      refine (cascadeFold_state env ps _).2.2 k ?_
      rw [lookupA_insertA]
      by_cases hk : uniqueKeyFromMetadata (clearObj o) = k <;> simp [hk, h]

theorem loadObj_state (env : Env) (s : LoaderState) (o : Obj) :
    (loadObj env s o).1.filterMap = s.filterMap ∧
    ∀ k, (lookupA s.exist k).isSome = true →
      (lookupA (loadObj env s o).1.exist k).isSome = true := by
  by_cases h0 : o.ownerReferences.isEmpty = true
  · simp only [loadObj, h0, if_true]
    exact applyPhase_state env s o o
  · by_cases h1 : (o.ownerReferences.filter
        fun r => (lookupA s.exist (uniqueKeyFromOwnerReference r)).isNone).isEmpty = true
    · simp only [loadObj, h0, h1, if_true, if_false]
      exact applyPhase_state env s o _
    · simp only [loadObj, h0, h1, if_false]
      exact ⟨by trivial, fun k h => h⟩

theorem processObjs_state (env : Env) (objs : List Obj) (s : LoaderState) :
    (processObjs env objs s).1.filterMap = s.filterMap ∧
    ∀ k, (lookupA s.exist k).isSome = true →
      (lookupA (processObjs env objs s).1.exist k).isSome = true := by
  induction objs generalizing s with
  | nil => exact ⟨rfl, fun k h => h⟩
  | cons o rest ih =>
    by_cases hf : filterB s o = true
    · simp only [processObjs, hf, if_true]
      refine ⟨((ih _).1).trans (loadObj_state env s o).1, fun k h => ?_⟩
      exact (ih _).2 k ((loadObj_state env s o).2 k h)
    · simp only [processObjs, hf, if_false]
      exact ih s

theorem listAt_fold_mem {o : Obj} (ms : List OwnerReference)
    (p : List (UniqueKey × List Obj)) (k : UniqueKey) (q : Obj)
    (h : q ∈ listAt p k) :
    q ∈ listAt
      (ms.foldl (fun acc r => appendAt acc (uniqueKeyFromOwnerReference r) o) p) k := by
  induction ms generalizing p with
  | nil => exact h
  | cons r rest ih =>
    refine ih _ ?_
    unfold listAt
    rw [lookupA_appendAt]
    by_cases hk : uniqueKeyFromOwnerReference r = k
    · simp only [hk, if_true, Option.getD_some]
      exact List.mem_append.mpr (Or.inl (hk ▸ h))
    · simp only [hk, if_false]
      exact h

theorem listAt_fold_self {o : Obj} (ms : List OwnerReference)
    (p : List (UniqueKey × List Obj)) (r : OwnerReference) (hr : r ∈ ms) :
    o ∈ listAt
      (ms.foldl (fun acc r => appendAt acc (uniqueKeyFromOwnerReference r) o) p)
      (uniqueKeyFromOwnerReference r) := by
  induction ms generalizing p with
  | nil => simp at hr
  | cons r0 rest ih =>
    rcases List.mem_cons.mp hr with h0 | h0
    · subst h0
      refine listAt_fold_mem rest _ _ _ ?_
      unfold listAt
      rw [lookupA_appendAt]
      simp
    · exact ih _ h0

theorem applyPhase_pending_transport (env : Env) (s : LoaderState) (src o : Obj)
    (k : UniqueKey) (q : Obj) (hq : q ∈ listAt s.pending k)
    (hk : lookupA (applyPhase env s src o).1.exist k = none) :
    q ∈ listAt (applyPhase env s src o).1.pending k := by
  rcases h1 : (applyModel env s.applyCount src o).1 with _ | uid
  · simp only [applyPhase, h1]
    exact hq
  · rcases h2 : lookupA s.pending (uniqueKeyFromMetadata (clearObj o)) with _ | ps
    · simp only [applyPhase, h1, h2]
      exact hq
    · simp only [applyPhase, h1, h2] at hk ⊢
      have hkey : (lookupA (applyPhase env s src o).1.exist
          (uniqueKeyFromMetadata (clearObj o))).isSome = true := by
        simp only [applyPhase, h1, h2]
        refine (cascadeFold_state env ps _).2.2 _ ?_
        rw [lookupA_insertA]
        simp
      have hne : uniqueKeyFromMetadata (clearObj o) ≠ k := by
        intro hcon
        rw [hcon] at hkey
        simp only [applyPhase, h1, h2] at hkey
        rw [hk] at hkey
        simp at hkey
      have hpe := (cascadeFold_state env ps
        { s with
            applyCount := s.applyCount + 1,
            exist := insertA s.exist (uniqueKeyFromMetadata (clearObj o)) uid }).2.1
      unfold listAt
      rw [hpe, lookupA_eraseA_ne _ _ _ hne]
      exact hq

theorem loadObj_pending_transport (env : Env) (s : LoaderState) (o : Obj)
    (k : UniqueKey) (q : Obj) (hq : q ∈ listAt s.pending k)
    (hk : lookupA (loadObj env s o).1.exist k = none) :
    q ∈ listAt (loadObj env s o).1.pending k := by
  by_cases h0 : o.ownerReferences.isEmpty = true
  · simp only [loadObj, h0, if_true] at hk ⊢
    exact applyPhase_pending_transport env s o o k q hq hk
  · by_cases h1 : (o.ownerReferences.filter
        fun r => (lookupA s.exist (uniqueKeyFromOwnerReference r)).isNone).isEmpty = true
    · simp only [loadObj, h0, h1, if_true, if_false] at hk ⊢
      exact applyPhase_pending_transport env s o _ k q hq hk
    · simp only [loadObj, h0, h1, if_false]
      exact listAt_fold_mem _ _ _ _ hq

theorem loadObj_defer (env : Env) (s : LoaderState) (o : Obj) (r : OwnerReference)
    (hr : r ∈ o.ownerReferences)
    (hmiss : lookupA s.exist (uniqueKeyFromOwnerReference r) = none) :
    o ∈ listAt (loadObj env s o).1.pending (uniqueKeyFromOwnerReference r) ∧
      (loadObj env s o).2 = [] ∧ (loadObj env s o).1.exist = s.exist := by
  have h0 : o.ownerReferences.isEmpty = false := by
    rcases hrefs : o.ownerReferences with _ | ⟨a, l⟩
    · rw [hrefs] at hr; simp at hr
    · rfl
  have hmem : r ∈ o.ownerReferences.filter
      (fun r => (lookupA s.exist (uniqueKeyFromOwnerReference r)).isNone) :=
    List.mem_filter.mpr ⟨hr, by simp [hmiss]⟩
  have h1 : (o.ownerReferences.filter
      fun r => (lookupA s.exist (uniqueKeyFromOwnerReference r)).isNone).isEmpty = false := by
    rcases hf : o.ownerReferences.filter
        (fun r => (lookupA s.exist (uniqueKeyFromOwnerReference r)).isNone) with _ | ⟨a, l⟩
    · rw [hf] at hmem; simp at hmem
    · rfl
  simp only [loadObj, h0, h1, Bool.false_eq_true, if_false]
  exact ⟨listAt_fold_self _ _ r hmem, by trivial, by trivial⟩

theorem processObjs_pending_transport (env : Env) (objs : List Obj) (s : LoaderState)
    (k : UniqueKey) (q : Obj) (hq : q ∈ listAt s.pending k)
    (hk : lookupA (processObjs env objs s).1.exist k = none) :
    q ∈ listAt (processObjs env objs s).1.pending k := by
  induction objs generalizing s with
  | nil => exact hq
  | cons o rest ih =>
    by_cases hf : filterB s o = true
    · simp only [processObjs, hf, if_true] at hk ⊢
      have hk1 : lookupA (loadObj env s o).1.exist k = none := by
        rcases h2 : lookupA (loadObj env s o).1.exist k with _ | v
        · rfl
        · exfalso
          have := (processObjs_state env rest (loadObj env s o).1).2 k (by simp [h2])
          rw [hk] at this
          simp at this
      exact ih _ (loadObj_pending_transport env s o k q hq hk1) hk
    · simp only [processObjs, hf, if_false] at hk ⊢
      exact ih s hq hk

theorem mem_eraseA_sub {m : List (UniqueKey × List Obj)} {k : UniqueKey}
    {x : UniqueKey × List Obj} (h : x ∈ eraseA m k) : x ∈ m := by
  induction m with
  | nil => simpa [eraseA] using h
  | cons kv rest ih =>
    obtain ⟨k0, os⟩ := kv
    by_cases h0 : k0 = k
    · have h1 : eraseA ((k0, os) :: rest) k = rest := by simp [eraseA, h0]
      rw [h1] at h
      exact List.mem_cons_of_mem _ h
    · have h1 : eraseA ((k0, os) :: rest) k = (k0, os) :: eraseA rest k := by
        simp [eraseA, h0]
      rw [h1] at h
      rcases List.mem_cons.mp h with h2 | h2
      · exact h2 ▸ List.mem_cons_self _ _
      · exact List.mem_cons_of_mem _ (ih h2)

theorem mem_appendAt_cases {m : List (UniqueKey × List Obj)} {k : UniqueKey} {o : Obj}
    {x : UniqueKey × List Obj} (h : x ∈ appendAt m k o) :
    x ∈ m ∨ (∃ os, x = (k, os ++ [o]) ∧ (k, os) ∈ m) ∨ x = (k, [o]) := by
  induction m with
  | nil =>
    have h1 : appendAt [] k o = [(k, [o])] := rfl
    rw [h1] at h
    simp at h
    exact Or.inr (Or.inr h)
  | cons kv rest ih =>
    obtain ⟨k0, os0⟩ := kv
    by_cases h0 : k0 = k
    · subst h0
      have h1 : appendAt ((k0, os0) :: rest) k0 o = (k0, os0 ++ [o]) :: rest := by
        simp [appendAt]
      rw [h1] at h
      rcases List.mem_cons.mp h with h2 | h2
      · exact Or.inr (Or.inl ⟨os0, h2, List.mem_cons_self _ _⟩)
      · exact Or.inl (List.mem_cons_of_mem _ h2)
    · have h1 : appendAt ((k0, os0) :: rest) k o = (k0, os0) :: appendAt rest k o := by
        simp [appendAt, h0]
      rw [h1] at h
      rcases List.mem_cons.mp h with h2 | h2
      · exact Or.inl (h2 ▸ List.mem_cons_self _ _)
      · rcases ih h2 with h3 | ⟨os, h3, h4⟩ | h3
        · exact Or.inl (List.mem_cons_of_mem _ h3)
        · exact Or.inr (Or.inl ⟨os, h3, List.mem_cons_of_mem _ h4⟩)
        · exact Or.inr (Or.inr h3)

theorem pendingOwnersKeyed_eraseA {p : List (UniqueKey × List Obj)} {k : UniqueKey}
    (h : PendingOwnersKeyed p) : PendingOwnersKeyed (eraseA p k) :=
  fun kv hkv q hq => h kv (mem_eraseA_sub hkv) q hq

theorem pendingOwnersKeyed_appendAt {p : List (UniqueKey × List Obj)} {k : UniqueKey}
    {o : Obj} (h : PendingOwnersKeyed p)
    (hk : k ∈ o.ownerReferences.map uniqueKeyFromOwnerReference) :
    PendingOwnersKeyed (appendAt p k o) := by
  intro kv hkv q hq
  rcases mem_appendAt_cases hkv with h1 | ⟨os, h1, h2⟩ | h1
  · exact h kv h1 q hq
  · subst h1
    simp only at hq ⊢
    rcases List.mem_append.mp hq with h3 | h3
    · exact h (k, os) h2 q h3
    · simp at h3
      subst h3
      exact hk
  · subst h1
    simp only at hq ⊢
    simp at hq
    subst hq
    exact hk

theorem pendingOwnersKeyed_fold {o : Obj} (ms : List OwnerReference)
    (hsub : ∀ r ∈ ms, r ∈ o.ownerReferences)
    (p : List (UniqueKey × List Obj)) (h : PendingOwnersKeyed p) :
    PendingOwnersKeyed
      (ms.foldl (fun acc r => appendAt acc (uniqueKeyFromOwnerReference r) o) p) := by
  induction ms generalizing p with
  | nil => exact h
  | cons r rest ih =>
    refine ih (fun r' hr' => hsub r' (List.mem_cons_of_mem _ hr')) _ ?_
    refine pendingOwnersKeyed_appendAt h ?_
    exact List.mem_map.mpr ⟨r, hsub r (List.mem_cons_self _ _), rfl⟩

theorem hasAll_iff (m : List (UniqueKey × String)) (o : Obj) :
    hasAllOwnerReferences m o = true ↔
      ∀ r ∈ o.ownerReferences,
        (lookupA m (uniqueKeyFromOwnerReference r)).isSome = true := by
  simp [hasAllOwnerReferences]

theorem attemptsResolved_mono {e1 e2 : List (UniqueKey × String)} {evs : List Event}
    (h : AttemptsResolved e1 evs)
    (hmono : ∀ k, (lookupA e1 k).isSome = true → (lookupA e2 k).isSome = true) :
    AttemptsResolved e2 evs :=
  fun e he q hq r hr => hmono _ (h e he q hq r hr)

theorem attemptsResolved_append {ex : List (UniqueKey × String)} {evs1 evs2 : List Event}
    (h1 : AttemptsResolved ex evs1) (h2 : AttemptsResolved ex evs2) :
    AttemptsResolved ex (evs1 ++ evs2) := by
  intro e he
  rcases List.mem_append.mp he with h | h
  · exact h1 e h
  · exact h2 e h

theorem cascadeFold_resolved (env : Env) (ps : List Obj) (s : LoaderState)
    (key : UniqueKey)
    (hkeyed : ∀ p ∈ ps, key ∈ p.ownerReferences.map uniqueKeyFromOwnerReference)
    (hkey : (lookupA s.exist key).isSome = true) :
    AttemptsResolved (cascadeFold env ps s).1.exist (cascadeFold env ps s).2 := by
  induction ps generalizing s with
  | nil => intro e he; simp [cascadeFold] at he
  | cons p rest ih =>
    have hkeyed' : ∀ p' ∈ rest,
        key ∈ p'.ownerReferences.map uniqueKeyFromOwnerReference :=
      fun p' hp' => hkeyed p' (List.mem_cons_of_mem _ hp')
    by_cases hc : (p.ownerReferences.length == 1 || hasAllOwnerReferences s.exist p) = true
    · have hresolved : ∀ r ∈ p.ownerReferences,
          (lookupA s.exist (uniqueKeyFromOwnerReference r)).isSome = true := by
        rcases Bool.or_eq_true_iff.mp hc with h1 | h1
        · have h1' : p.ownerReferences.length = 1 := by simpa using h1
          rcases List.length_eq_one.mp h1' with ⟨r0, hr0⟩
          intro r hr
          rw [hr0] at hr
          simp at hr
          subst hr
          have hkm := hkeyed p (List.mem_cons_self _ _)
          rw [hr0] at hkm
          simp at hkm
          rw [← hkm]
          exact hkey
        · exact (hasAll_iff s.exist p).mp h1
      rcases h1 : (applyModel env s.applyCount p (updateOwnerReferences s.exist p)).1 with
        _ | uid
      · simp only [cascadeFold, hc, if_true, h1]
        intro e he q hq r hr
        rcases List.mem_append.mp he with hem | hem
        · have hqp : q = p := applyModel_submitsSrc hem hq
          subst hqp
          exact (cascadeFold_state env rest _).2.2 _ (hresolved r hr)
        · exact ih { s with applyCount := s.applyCount + 1 } hkeyed' hkey e hem q hq r hr
      · simp only [cascadeFold, hc, if_true, h1]
        intro e he q hq r hr
        rcases List.mem_append.mp he with hem | hem
        · have hqp : q = p := applyModel_submitsSrc hem hq
          subst hqp
          refine (cascadeFold_state env rest _).2.2 _ ?_
          rw [lookupA_insertA]
          by_cases hk : uniqueKeyFromMetadata (clearObj (updateOwnerReferences s.exist q)) =
              uniqueKeyFromOwnerReference r <;>
            simp [hk, hresolved r hr]
        · refine ih _ hkeyed' ?_ e hem q hq r hr
          rw [lookupA_insertA]
          by_cases hk : uniqueKeyFromMetadata (clearObj (updateOwnerReferences s.exist p)) =
              key <;>
            simp [hk, hkey]
    · simp only [cascadeFold, hc, if_false]
      exact ih s hkeyed' hkey

theorem applyPhase_resolved (env : Env) (s : LoaderState) (src o : Obj)
    (hkeyed : PendingOwnersKeyed s.pending)
    (hall : hasAllOwnerReferences s.exist src = true) :
    AttemptsResolved (applyPhase env s src o).1.exist (applyPhase env s src o).2 ∧
      PendingOwnersKeyed (applyPhase env s src o).1.pending := by
  have hsrc : ∀ r ∈ src.ownerReferences,
      (lookupA s.exist (uniqueKeyFromOwnerReference r)).isSome = true :=
    (hasAll_iff s.exist src).mp hall
  rcases h1 : (applyModel env s.applyCount src o).1 with _ | uid
  · simp only [applyPhase, h1]
    refine ⟨?_, hkeyed⟩
    intro e he q hq r hr
    have hqp : q = src := applyModel_submitsSrc he hq
    subst hqp
    exact hsrc r hr
  · rcases h2 : lookupA s.pending (uniqueKeyFromMetadata (clearObj o)) with _ | ps
    · simp only [applyPhase, h1, h2]
      refine ⟨?_, hkeyed⟩
      intro e he q hq r hr
      have hqp : q = src := applyModel_submitsSrc he hq
      subst hqp
      rw [lookupA_insertA]
      by_cases hk : uniqueKeyFromMetadata (clearObj o) = uniqueKeyFromOwnerReference r <;>
        simp [hk, hsrc r hr]
    · have hps : ∀ p ∈ ps, uniqueKeyFromMetadata (clearObj o) ∈
          p.ownerReferences.map uniqueKeyFromOwnerReference := by
        intro p hp
        exact hkeyed _ (mem_of_lookupA h2) p hp
      simp only [applyPhase, h1, h2]
      constructor
      · intro e he q hq r hr
        rcases List.mem_append.mp he with hem | hem
        · have hqp : q = src := applyModel_submitsSrc hem hq
          subst hqp
          refine (cascadeFold_state env ps _).2.2 _ ?_
          rw [lookupA_insertA]
          by_cases hk : uniqueKeyFromMetadata (clearObj o) = uniqueKeyFromOwnerReference r <;>
            simp [hk, hsrc r hr]
        · refine cascadeFold_resolved env ps _ (uniqueKeyFromMetadata (clearObj o)) hps ?_
            e hem q hq r hr
          rw [lookupA_insertA]
          simp
      · have hpe := (cascadeFold_state env ps
          { s with
              applyCount := s.applyCount + 1,
              exist := insertA s.exist (uniqueKeyFromMetadata (clearObj o)) uid }).2.1
        intro kv hkv q hq
        rw [hpe] at hkv
        exact pendingOwnersKeyed_eraseA hkeyed kv hkv q hq

theorem loadObj_resolved (env : Env) (s : LoaderState) (o : Obj)
    (hkeyed : PendingOwnersKeyed s.pending) :
    AttemptsResolved (loadObj env s o).1.exist (loadObj env s o).2 ∧
      PendingOwnersKeyed (loadObj env s o).1.pending := by
  by_cases h0 : o.ownerReferences.isEmpty = true
  · simp only [loadObj, h0, if_true]
    refine applyPhase_resolved env s o o hkeyed ?_
    have hnil : o.ownerReferences = [] := List.isEmpty_iff.mp h0
    simp [hasAllOwnerReferences, hnil]
  · by_cases h1 : (o.ownerReferences.filter
        fun r => (lookupA s.exist (uniqueKeyFromOwnerReference r)).isNone).isEmpty = true
    · simp only [loadObj, h0, h1, if_true, if_false]
      refine applyPhase_resolved env s o _ hkeyed ?_
      rw [hasAll_iff]
      intro r hr
      have hf := List.isEmpty_iff.mp h1
      rcases hres : lookupA s.exist (uniqueKeyFromOwnerReference r) with _ | v
      · have hmem : r ∈ o.ownerReferences.filter
            (fun r => (lookupA s.exist (uniqueKeyFromOwnerReference r)).isNone) :=
          List.mem_filter.mpr ⟨hr, by simp [hres]⟩
        rw [hf] at hmem
        simp at hmem
      · simp
    · simp only [loadObj, h0, h1, if_false]
      constructor
      · intro e he; simp at he
      · exact pendingOwnersKeyed_fold _ (fun r hr => (List.mem_filter.mp hr).1) _ hkeyed

theorem processObjs_resolved (env : Env) (objs : List Obj) (s : LoaderState)
    (hkeyed : PendingOwnersKeyed s.pending) :
    AttemptsResolved (processObjs env objs s).1.exist (processObjs env objs s).2 ∧
      PendingOwnersKeyed (processObjs env objs s).1.pending := by
  induction objs generalizing s with
  | nil => exact ⟨fun e he => by simp [processObjs] at he, hkeyed⟩
  | cons o rest ih =>
    by_cases hf : filterB s o = true
    · simp only [processObjs, hf, if_true]
      have hl := loadObj_resolved env s o hkeyed
      have hi := ih _ hl.2
      refine ⟨?_, hi.2⟩
      refine attemptsResolved_append ?_ hi.1
      exact attemptsResolved_mono hl.1 ((processObjs_state env rest _).2)
    · simp only [processObjs, hf, if_false]
      have hi := ih s hkeyed
      refine ⟨?_, hi.2⟩
      intro e he q hq r hr
      rcases List.mem_cons.mp he with hem | hem
      · subst hem; simp [submitsSrc] at hq
      · exact hi.1 e hem q hq r hr

theorem mem_objsOf_fold {o : Obj} (ms : List OwnerReference)
    (p : List (UniqueKey × List Obj)) (q : Obj)
    (h : q ∈ objsOf
      (ms.foldl (fun acc r => appendAt acc (uniqueKeyFromOwnerReference r) o) p)) :
    q ∈ objsOf p ∨ q = o := by
  induction ms generalizing p with
  | nil => exact Or.inl h
  | cons r rest ih =>
    rcases ih _ h with h1 | h1
    · exact mem_objsOf_appendAt _ _ _ _ h1
    · exact Or.inr h1

theorem attemptsFiltered_append {fm : List GroupKind} {evs1 evs2 : List Event}
    (h1 : AttemptsFiltered fm evs1) (h2 : AttemptsFiltered fm evs2) :
    AttemptsFiltered fm (evs1 ++ evs2) := by
  intro e he
  rcases List.mem_append.mp he with h | h
  · exact h1 e h
  · exact h2 e h

theorem cascadeFold_filtered (env : Env) (ps : List Obj) (s : LoaderState)
    (fm : List GroupKind) (hps : ∀ p ∈ ps, filterChk fm p = true) :
    AttemptsFiltered fm (cascadeFold env ps s).2 := by
  induction ps generalizing s with
  | nil => intro e he; simp [cascadeFold] at he
  | cons p rest ih =>
    have hps' : ∀ p' ∈ rest, filterChk fm p' = true :=
      fun p' hp' => hps p' (List.mem_cons_of_mem _ hp')
    by_cases hc : (p.ownerReferences.length == 1 || hasAllOwnerReferences s.exist p) = true
    · have hhead : ∀ e ∈ (applyModel env s.applyCount p
          (updateOwnerReferences s.exist p)).2, ∀ q, involvesObj q e = true →
          filterChk fm q = true := by
        intro e he q hq
        rcases applyModel_involvesObj he hq with h | h
        · exact h ▸ hps p (List.mem_cons_self _ _)
        · rw [h, filterChk_clearObj, filterChk_update]
          exact hps p (List.mem_cons_self _ _)
      rcases h1 : (applyModel env s.applyCount p (updateOwnerReferences s.exist p)).1 with
        _ | uid
      · simp only [cascadeFold, hc, if_true, h1]
        exact attemptsFiltered_append hhead (ih _ hps')
      · simp only [cascadeFold, hc, if_true, h1]
        exact attemptsFiltered_append hhead (ih _ hps')
    · simp [cascadeFold, hc]
      exact ih s hps'

theorem applyPhase_filtered (env : Env) (s : LoaderState) (src o : Obj)
    (fm : List GroupKind) (hsrc : filterChk fm src = true)
    (hosrc : filterChk fm o = true) (hpend : PendingFiltered fm s.pending) :
    AttemptsFiltered fm (applyPhase env s src o).2 ∧
      PendingFiltered fm (applyPhase env s src o).1.pending := by
  have hhead : ∀ e ∈ (applyModel env s.applyCount src o).2, ∀ q,
      involvesObj q e = true → filterChk fm q = true := by
    intro e he q hq
    rcases applyModel_involvesObj he hq with h | h
    · exact h ▸ hsrc
    · rw [h, filterChk_clearObj]
      exact hosrc
  rcases h1 : (applyModel env s.applyCount src o).1 with _ | uid
  · simp only [applyPhase, h1]
    exact ⟨hhead, hpend⟩
  · rcases h2 : lookupA s.pending (uniqueKeyFromMetadata (clearObj o)) with _ | ps
    · simp only [applyPhase, h1, h2]
      exact ⟨hhead, hpend⟩
    · have hps : ∀ p ∈ ps, filterChk fm p = true := by
        intro p hp
        exact hpend p (mem_objsOf_of_entry (mem_of_lookupA h2) hp)
      have hpe := (cascadeFold_state env ps
        { s with
            applyCount := s.applyCount + 1,
            exist := insertA s.exist (uniqueKeyFromMetadata (clearObj o)) uid }).2.1
      simp only [applyPhase, h1, h2]
      refine ⟨attemptsFiltered_append hhead (cascadeFold_filtered env ps _ fm hps), ?_⟩
      intro q hq
      rw [hpe] at hq
      exact hpend q (mem_objsOf_eraseA _ _ _ hq)

theorem loadObj_filtered (env : Env) (s : LoaderState) (o : Obj)
    (fm : List GroupKind) (ho : filterChk fm o = true)
    (hpend : PendingFiltered fm s.pending) :
    AttemptsFiltered fm (loadObj env s o).2 ∧
      PendingFiltered fm (loadObj env s o).1.pending := by
  by_cases h0 : o.ownerReferences.isEmpty = true
  · simp only [loadObj, h0, if_true]
    exact applyPhase_filtered env s o o fm ho ho hpend
  · by_cases h1 : (o.ownerReferences.filter
        fun r => (lookupA s.exist (uniqueKeyFromOwnerReference r)).isNone).isEmpty = true
    · simp only [loadObj, h0, h1, if_true, if_false]
      exact applyPhase_filtered env s o _ fm ho
        (by rw [filterChk_update]; exact ho) hpend
    · simp only [loadObj, h0, h1, if_false]
      refine ⟨fun e he => by simp at he, ?_⟩
      intro q hq
      rcases mem_objsOf_fold _ _ _ hq with h2 | h2
      · exact hpend q h2
      · exact h2 ▸ ho

theorem processObjs_filtered (env : Env) (objs : List Obj) (s : LoaderState)
    (fm : List GroupKind) (hfm : s.filterMap = fm)
    (hpend : PendingFiltered fm s.pending) :
    AttemptsFiltered fm (processObjs env objs s).2 ∧
      PendingFiltered fm (processObjs env objs s).1.pending := by
  induction objs generalizing s with
  | nil => exact ⟨fun e he => by simp [processObjs] at he, hpend⟩
  | cons o rest ih =>
    by_cases hf : filterB s o = true
    · have ho : filterChk fm o = true := by
        rw [← hfm]
        exact hf
      have hl := loadObj_filtered env s o fm ho hpend
      have hi := ih (loadObj env s o).1 ((loadObj_state env s o).1.trans hfm) hl.2
      simp only [processObjs, hf, if_true]
      exact ⟨attemptsFiltered_append hl.1 hi.1, hi.2⟩
    · have hi := ih s hfm hpend
      simp only [processObjs, hf, if_false]
      refine ⟨?_, hi.2⟩
      intro e he q hq
      rcases List.mem_cons.mp he with hem | hem
      · subst hem; simp [involvesObj] at hq
      · exact hi.1 e hem q hq

theorem bindingFromEvents_sub {evs evs' : List Event} {k : UniqueKey} {v : String}
    (hsub : ∀ e ∈ evs, e ∈ evs') (h : BindingFromEvents evs k v) :
    BindingFromEvents evs' k v := by
  rcases h with ⟨src, h1 | h1, h2⟩
  · exact ⟨src, Or.inl (hsub _ h1), h2⟩
  · exact ⟨src, Or.inr (hsub _ h1), h2⟩

theorem cascadeFold_bindings (env : Env) (ps : List Obj) (s : LoaderState) :
    ∀ k v, lookupA (cascadeFold env ps s).1.exist k = some v →
      lookupA s.exist k = some v ∨ BindingFromEvents (cascadeFold env ps s).2 k v := by
  induction ps generalizing s with
  | nil => exact fun k v h => Or.inl h
  | cons p rest ih =>
    by_cases hc : (p.ownerReferences.length == 1 || hasAllOwnerReferences s.exist p) = true
    · rcases h1 : (applyModel env s.applyCount p (updateOwnerReferences s.exist p)).1 with
        _ | uid
      · simp only [cascadeFold, hc, if_true, h1]
        intro k v h
        rcases ih { s with applyCount := s.applyCount + 1 } k v h with h2 | h2
        · exact Or.inl h2
        · exact Or.inr (bindingFromEvents_sub
            (fun e he => List.mem_append.mpr (Or.inr he)) h2)
      · simp only [cascadeFold, hc, if_true, h1]
        intro k v h
        rcases ih _ k v h with h2 | h2
        · rw [lookupA_insertA] at h2
          by_cases hk :
              uniqueKeyFromMetadata (clearObj (updateOwnerReferences s.exist p)) = k
          · rw [if_pos hk] at h2
            have huv : uid = v := by simpa using h2
            subst huv
            refine Or.inr ⟨p, ?_, (uniqueKey_clear_update s.exist p) ▸ hk⟩
            rcases applyModel_res_some env s.applyCount p
                (updateOwnerReferences s.exist p) uid h1 with h3 | h3
            · exact Or.inl (List.mem_append.mpr (Or.inl h3))
            · exact Or.inr (List.mem_append.mpr (Or.inl h3))
          · rw [if_neg hk] at h2
            exact Or.inl h2
        · exact Or.inr (bindingFromEvents_sub
            (fun e he => List.mem_append.mpr (Or.inr he)) h2)
    · simp only [cascadeFold, hc, if_false]
      exact ih s

theorem applyPhase_bindings (env : Env) (s : LoaderState) (src o : Obj)
    (hkey : uniqueKeyFromMetadata (clearObj o) = uniqueKeyFromMetadata (clearObj src)) :
    ∀ k v, lookupA (applyPhase env s src o).1.exist k = some v →
      lookupA s.exist k = some v ∨ BindingFromEvents (applyPhase env s src o).2 k v := by
  intro k v h
  rcases h1 : (applyModel env s.applyCount src o).1 with _ | uid
  · simp only [applyPhase, h1] at h
    exact Or.inl h
  · have hins : lookupA (insertA s.exist (uniqueKeyFromMetadata (clearObj o)) uid) k =
        some v → lookupA s.exist k = some v ∨
        BindingFromEvents (applyModel env s.applyCount src o).2 k v := by
      intro h2
      rw [lookupA_insertA] at h2
      by_cases hk : uniqueKeyFromMetadata (clearObj o) = k
      · rw [if_pos hk] at h2
        have huv : uid = v := by simpa using h2
        subst huv
        refine Or.inr ⟨src, ?_, hkey ▸ hk⟩
        exact applyModel_res_some env s.applyCount src o uid h1
      · rw [if_neg hk] at h2
        exact Or.inl h2
    rcases h2 : lookupA s.pending (uniqueKeyFromMetadata (clearObj o)) with _ | ps
    · simp only [applyPhase, h1, h2] at h ⊢
      exact hins h
    · simp only [applyPhase, h1, h2] at h
      rcases cascadeFold_bindings env ps _ k v h with h3 | h3
      · rcases hins h3 with h4 | h4
        · exact Or.inl h4
        · refine Or.inr (bindingFromEvents_sub (fun e he => ?_) h4)
          simp only [applyPhase, h1, h2]
          exact List.mem_append.mpr (Or.inl he)
      · refine Or.inr (bindingFromEvents_sub (fun e he => ?_) h3)
        simp only [applyPhase, h1, h2]
        exact List.mem_append.mpr (Or.inr he)

theorem loadObj_bindings (env : Env) (s : LoaderState) (o : Obj) :
    ∀ k v, lookupA (loadObj env s o).1.exist k = some v →
      lookupA s.exist k = some v ∨ BindingFromEvents (loadObj env s o).2 k v := by
  intro k v h
  by_cases h0 : o.ownerReferences.isEmpty = true
  · simp only [loadObj, h0, if_true] at h ⊢
    exact applyPhase_bindings env s o o rfl k v h
  · by_cases h1 : (o.ownerReferences.filter
        fun r => (lookupA s.exist (uniqueKeyFromOwnerReference r)).isNone).isEmpty = true
    · simp only [loadObj, h0, h1, if_true, if_false] at h ⊢
      exact applyPhase_bindings env s o _ (uniqueKey_clear_update s.exist o) k v h
    · simp only [loadObj, h0, h1, if_false] at h ⊢
      exact Or.inl h

theorem processObjs_bindings (env : Env) (objs : List Obj) (s : LoaderState) :
    ∀ k v, lookupA (processObjs env objs s).1.exist k = some v →
      lookupA s.exist k = some v ∨ BindingFromEvents (processObjs env objs s).2 k v := by
  induction objs generalizing s with
  | nil => exact fun k v h => Or.inl h
  | cons o rest ih =>
    intro k v h
    by_cases hf : filterB s o = true
    · simp only [processObjs, hf, if_true] at h ⊢
      rcases ih (loadObj env s o).1 k v h with h2 | h2
      · rcases loadObj_bindings env s o k v h2 with h3 | h3
        · exact Or.inl h3
        · exact Or.inr (bindingFromEvents_sub
            (fun e he => List.mem_append.mpr (Or.inl he)) h3)
      · exact Or.inr (bindingFromEvents_sub
          (fun e he => List.mem_append.mpr (Or.inr he)) h2)
    · simp only [processObjs, hf, if_false] at h ⊢
      rcases ih s k v h with h2 | h2
      · exact Or.inl h2
      · exact Or.inr (bindingFromEvents_sub
          (fun e he => List.mem_cons_of_mem _ he) h2)

theorem processDocs_map_obj (env : Env) (objs : List Obj) (s : LoaderState) :
    processDocs env (objs.map Doc.obj) s = .ok (processObjs env objs s) := by
  induction objs generalizing s with
  | nil => rfl
  | cons o rest ih =>
    by_cases hf : filterB s o = true <;>
      simp [processDocs, processObjs, hf, ih]

theorem processDocs_malformed (env : Env) (pre : List Obj) (rest : List Doc)
    (s : LoaderState) :
    processDocs env (pre.map Doc.obj ++ Doc.malformed :: rest) s =
      .error "failed to decode objects" := by
  induction pre generalizing s with
  | nil => rfl
  | cons o pre ih =>
    by_cases hf : filterB s o = true <;>
      simp [processDocs, hf, ih]

theorem runLoad_map_obj (env : Env) (objs : List Obj) (s : LoaderState) :
    runLoad env (objs.map Doc.obj) s = .ok (runLoadObjs env objs s) := by
  unfold runLoad runLoadObjs
  rw [processDocs_map_obj]

theorem mem_reportEvents {p : List (UniqueKey × List Obj)} {k : UniqueKey} {X : Obj}
    (h : X ∈ listAt p k) : Event.skippedMissingOwner X ∈ reportEvents p := by
  have hm := mem_objsOf_of_listAt h
  unfold objsOf at hm
  unfold reportEvents
  rcases List.mem_flatMap.mp hm with ⟨kv, hkv, hX⟩
  exact List.mem_flatMap.mpr ⟨kv, hkv, List.mem_map.mpr ⟨X, hX, rfl⟩⟩

theorem processDocs_mono_bindings (env : Env) (docs : List Doc) (s : LoaderState) :
    ∀ p, processDocs env docs s = .ok p →
      (∀ k, (lookupA s.exist k).isSome = true → (lookupA p.1.exist k).isSome = true) ∧
      (∀ k v, lookupA p.1.exist k = some v →
        lookupA s.exist k = some v ∨ BindingFromEvents p.2 k v) := by
  induction docs generalizing s with
  | nil =>
    intro p hp
    simp only [processDocs] at hp
    injection hp with hp
    subst hp
    exact ⟨fun k h => h, fun k v h => Or.inl h⟩
  | cons d rest ih =>
    intro p hp
    rcases d with o | _
    · by_cases hf : filterB s o = true
      · simp only [processDocs, hf, if_true] at hp
        rcases h2 : processDocs env rest (loadObj env s o).1 with e | p2
        · rw [h2] at hp; exact absurd hp (by simp)
        · rw [h2] at hp
          injection hp with hp
          subst hp
          refine ⟨fun k h => (ih _ p2 h2).1 k ((loadObj_state env s o).2 k h),
            fun k v h => ?_⟩
          rcases (ih _ p2 h2).2 k v h with h3 | h3
          · rcases loadObj_bindings env s o k v h3 with h4 | h4
            · exact Or.inl h4
            · exact Or.inr (bindingFromEvents_sub
                (fun e he => List.mem_append.mpr (Or.inl he)) h4)
          · exact Or.inr (bindingFromEvents_sub
              (fun e he => List.mem_append.mpr (Or.inr he)) h3)
      · simp only [processDocs, hf, if_false] at hp
        rcases h2 : processDocs env rest s with e | p2
        · rw [h2] at hp; exact absurd hp (by simp)
        · rw [h2] at hp
          injection hp with hp
          subst hp
          refine ⟨fun k h => (ih s p2 h2).1 k h, fun k v h => ?_⟩
          rcases (ih s p2 h2).2 k v h with h3 | h3
          · exact Or.inl h3
          · exact Or.inr (bindingFromEvents_sub
              (fun e he => List.mem_cons_of_mem _ he) h3)
    · simp only [processDocs] at hp
      exact absurd hp (by simp)

theorem processObjs_append (env : Env) (l1 l2 : List Obj) (s : LoaderState) :
    (processObjs env (l1 ++ l2) s).1 =
      (processObjs env l2 (processObjs env l1 s).1).1 ∧
    (processObjs env (l1 ++ l2) s).2 =
      (processObjs env l1 s).2 ++ (processObjs env l2 (processObjs env l1 s).1).2 := by
  induction l1 generalizing s with
  | nil => exact ⟨rfl, rfl⟩
  | cons o rest ih =>
    by_cases hf : filterB s o = true <;>
      simp [processObjs, hf, ih, List.append_assoc]

theorem lookupA_eq_none_of_not_mem {α : Type} (m : List (UniqueKey × α)) (k : UniqueKey)
    (h : k ∉ m.map Prod.fst) : lookupA m k = none := by
  induction m with
  | nil => rfl
  | cons kv rest ih =>
    obtain ⟨k0, v0⟩ := kv
    simp only [List.map_cons, List.mem_cons] at h
    push_neg at h
    have hk : ¬ k0 = k := fun hh => h.1 hh.symm
    simp only [lookupA, hk, if_false]
    exact ih h.2

theorem lookupA_eraseA_self_of_nodup (m : List (UniqueKey × List Obj)) (k : UniqueKey)
    (h : (m.map Prod.fst).Nodup) : lookupA (eraseA m k) k = none := by
  induction m with
  | nil => rfl
  | cons kv rest ih =>
    obtain ⟨k0, os⟩ := kv
    simp only [List.map_cons, List.nodup_cons] at h
    by_cases h0 : k0 = k
    · have h1 : eraseA ((k0, os) :: rest) k = rest := by simp [eraseA, h0]
      rw [h1]
      refine lookupA_eq_none_of_not_mem rest k ?_
      rw [← h0]
      exact h.1
    · have h1 : eraseA ((k0, os) :: rest) k = (k0, os) :: eraseA rest k := by
        simp [eraseA, h0]
      rw [h1]
      simp only [lookupA, h0, if_false]
      exact ih h.2

theorem cascadeFold_all_skip (env : Env) (ds : List Obj) (s : LoaderState)
    (h : ∀ d ∈ ds,
      (d.ownerReferences.length == 1 || hasAllOwnerReferences s.exist d) = false) :
    cascadeFold env ds s = (s, []) := by
  induction ds with
  | nil => rfl
  | cons d rest ih =>
    have hd := h d (List.mem_cons_self _ _)
    simp only [cascadeFold, hd, Bool.false_eq_true, if_false]
    exact ih fun d' hd' => h d' (List.mem_cons_of_mem _ hd')

theorem reportEvents_shape (p : List (UniqueKey × List Obj)) :
    ∀ e ∈ reportEvents p, ∃ q, e = Event.skippedMissingOwner q := by
  unfold reportEvents
  intro e he
  rcases List.mem_flatMap.mp he with ⟨kv, _, hm⟩
  rcases List.mem_map.mp hm with ⟨q, _, hq⟩
  exact ⟨q, hq.symm⟩

/-- C7: the first malformed document fails the whole Load with the decode
error, while on a well-formed stream Load succeeds under every outcome
oracle, so per-object create, update, or kind-resolution failures never
make Load return an error. -/
theorem claim_C7_decode_errors_fatal :
    (∀ (env : Env) (s : LoaderState) (pre : List Obj) (rest : List Doc),
      runLoad env (pre.map Doc.obj ++ Doc.malformed :: rest) s =
        .error "failed to decode objects") ∧
    (∀ (env : Env) (s : LoaderState) (objs : List Obj),
      (runLoad env (objs.map Doc.obj) s).isOk = true) := by
  constructor
  · intro env s pre rest
    unfold runLoad
    rw [processDocs_malformed]
  · intro env s objs
    rw [runLoad_map_obj]
    rfl

/-- C6: for every object submitted by the loader the write path follows
the apply contract: at most one Create and at most one Update call occur
(no retry); when an Update occurs, the apply's first write-client event
is the Create call (create is attempted first); an Update occurs exactly
when Create reported AlreadyExists; an update conflict abandons the
object with a warning diagnostic; any other create or update failure
abandons it with an error diagnostic; and no apply outcome ever makes
Load itself fail, so the stream continues past every failure. -/
theorem claim_C6_apply_error_contract :
    (∀ (env : Env) (cnt : Nat) (src o : Obj),
      (applyModel env cnt src o).2.countP isCreateAttempt ≤ 1 ∧
      (applyModel env cnt src o).2.countP isUpdateAttempt ≤ 1 ∧
      ((∃ x y, Event.updateAttempt x y ∈ (applyModel env cnt src o).2) →
        (applyModel env cnt src o).2.head? =
          some (Event.createAttempt src (clearObj o))) ∧
      ((∃ x y, Event.updateAttempt x y ∈ (applyModel env cnt src o).2) ↔
        ((∃ uid, env cnt = .alreadyExistsThenUpdateOk uid) ∨
         env cnt = .alreadyExistsThenConflict ∨
         env cnt = .alreadyExistsThenUpdateError)) ∧
      (env cnt = .alreadyExistsThenConflict →
        (applyModel env cnt src o).1 = none ∧
        Event.conflictSkipped src ∈ (applyModel env cnt src o).2) ∧
      ((env cnt = .createError ∨ env cnt = .alreadyExistsThenUpdateError) →
        (applyModel env cnt src o).1 = none ∧
        Event.errorSkipped src ∈ (applyModel env cnt src o).2)) ∧
    (∀ (env : Env) (objs : List Obj) (s : LoaderState),
      (runLoad env (objs.map Doc.obj) s).isOk = true) ∧
    (∀ (env : Env) (s : LoaderState) (o : Obj) (rest : List Obj),
      filterB s o = true →
        processObjs env (o :: rest) s =
          ((processObjs env rest (loadObj env s o).1).1,
            (loadObj env s o).2 ++ (processObjs env rest (loadObj env s o).1).2)) := by
  refine ⟨?_, ?_, ?_⟩
  · intro env cnt src o
    rcases h : env cnt <;>
      simp [applyModel, h, isCreateAttempt, isUpdateAttempt, List.countP_cons]
  · intro env objs s
    rw [runLoad_map_obj]
    rfl
  · intro env s o rest hf
    simp [processObjs, hf]

/-- C10: over any whole Load invocation the Resolved-Identity Map is
append-only: every key present before is still present after (no key is
ever removed), and every binding of the final map either pre-existed or
was recorded by a successful create or update among the events, under
the applied object's recorded metadata tuple with the newly assigned
identifier. -/
theorem claim_C10_exist_append_only (env : Env) (docs : List Doc) (s sF : LoaderState)
    (evs : List Event) (hrun : runLoad env docs s = .ok (sF, evs)) :
    (∀ k, (lookupA s.exist k).isSome = true → (lookupA sF.exist k).isSome = true) ∧
    (∀ k v, lookupA sF.exist k = some v →
      lookupA s.exist k = some v ∨ BindingFromEvents evs k v) := by
  unfold runLoad at hrun
  rcases h : processDocs env docs s with e | p
  · rw [h] at hrun
    exact absurd hrun (by simp)
  · rw [h] at hrun
    injection hrun with hpair
    have hs : p.1 = sF := congrArg Prod.fst hpair
    have he : p.2 ++ reportEvents p.1.pending = evs := congrArg Prod.snd hpair
    have hmb := processDocs_mono_bindings env docs s p h
    constructor
    · intro k hk
      rw [← hs]
      exact hmb.1 k hk
    · intro k v hv
      rw [← hs] at hv
      rcases hmb.2 k v hv with h2 | h2
      · exact Or.inl h2
      · refine Or.inr (bindingFromEvents_sub (fun e2 he2 => ?_) h2)
        rw [← he]
        exact List.mem_append.mpr (Or.inl he2)

/-- C10 witness: in the concrete single-object run the recorded binding
is justified by the successful create of that object. -/
theorem claim_C10_witness :
    lookupA (initState c10fm).exist (uniqueKeyFromMetadata (clearObj c10A)) =
        some "uidA" ∨
      BindingFromEvents c10run.2 (uniqueKeyFromMetadata (clearObj c10A)) "uidA" :=
  (claim_C10_exist_append_only c10env [Doc.obj c10A] (initState c10fm)
      c10run.1 c10run.2 (runLoad_map_obj c10env [c10A] (initState c10fm))).2
    (uniqueKeyFromMetadata (clearObj c10A)) "uidA" (by decide)

/-- C9: when an owner with no owner references of its own applies
successfully and every dependent queued under its key has more than one
owner reference with at least one still unresolved after the owner is
recorded, no dependent is applied or recorded, the queue entry under
this owner's key is removed, and the queue under every other key is
unchanged — the dependents are not re-queued under their still-missing
owners. -/
theorem claim_C9_not_ready_dependent_dropped (env : Env) (s : LoaderState) (w : Obj)
    (uid : String) (ds : List Obj)
    (hnodup : (s.pending.map Prod.fst).Nodup)
    (hw : w.ownerReferences = [])
    (henv : env s.applyCount = .createOk uid)
    (hq : lookupA s.pending (uniqueKeyFromMetadata (clearObj w)) = some ds)
    (hnr : ∀ d ∈ ds, d.ownerReferences.length ≠ 1 ∧
      hasAllOwnerReferences
        (insertA s.exist (uniqueKeyFromMetadata (clearObj w)) uid) d = false) :
    (loadObj env s w).1.exist =
      insertA s.exist (uniqueKeyFromMetadata (clearObj w)) uid ∧
    (loadObj env s w).2 = (applyModel env s.applyCount w w).2 ∧
    lookupA (loadObj env s w).1.pending (uniqueKeyFromMetadata (clearObj w)) = none ∧
    (∀ k, k ≠ uniqueKeyFromMetadata (clearObj w) →
      lookupA (loadObj env s w).1.pending k = lookupA s.pending k) := by
  have h0 : w.ownerReferences.isEmpty = true := by rw [hw]; rfl
  have hres : (applyModel env s.applyCount w w).1 = some uid := by
    simp [applyModel, henv]
  have hc2 : ∀ d ∈ ds, (d.ownerReferences.length == 1 ||
      hasAllOwnerReferences
        (insertA s.exist (uniqueKeyFromMetadata (clearObj w)) uid) d) = false := by
    intro d hd
    rcases hb : (d.ownerReferences.length == 1) with _ | _
    · simp [hb, (hnr d hd).2]
    · exact absurd (by simpa using hb) (hnr d hd).1
  have hload : loadObj env s w =
      (⟨s.filterMap, insertA s.exist (uniqueKeyFromMetadata (clearObj w)) uid,
          eraseA s.pending (uniqueKeyFromMetadata (clearObj w)), s.applyCount + 1⟩,
        (applyModel env s.applyCount w w).2) := by
    have hskip := cascadeFold_all_skip env ds
      ⟨s.filterMap, insertA s.exist (uniqueKeyFromMetadata (clearObj w)) uid,
        s.pending, s.applyCount + 1⟩ hc2
    simp only [loadObj, h0, if_true, applyPhase, hres, hq, hskip, List.append_nil]
  rw [hload]
  refine ⟨rfl, rfl, ?_, ?_⟩
  · exact lookupA_eraseA_self_of_nodup s.pending _ hnodup
  · intro k hk
    exact lookupA_eraseA_ne s.pending _ k fun hh => hk hh.symm

/-- C9 witness: at the concrete input the not-ready dependent is skipped,
its entry under the applied owner's key is dropped, and the owner is
recorded. -/
theorem claim_C9_witness :
    (loadObj c9env c9s c9w).1.exist =
      insertA c9s.exist (uniqueKeyFromMetadata (clearObj c9w)) "u9" ∧
    lookupA (loadObj c9env c9s c9w).1.pending
      (uniqueKeyFromMetadata (clearObj c9w)) = none :=
  have h := claim_C9_not_ready_dependent_dropped c9env c9s c9w "u9" [c9dep]
    (by decide) (by decide) (by decide) (by decide) (by decide)
  ⟨h.1, h.2.2.1⟩

/-- C5: a decoded object whose GroupKind is not in the filter set is never
passed to the write client in any role and never enters the pending
queue at any point of a Load from a fresh loader, regardless of its
owner references. -/
theorem claim_C5_filtered_never_submitted_nor_queued (env : Env) (fm : List GroupKind)
    (o : Obj) (objs : List Obj) (sF : LoaderState) (evs : List Event)
    (hno : filterChk fm o = false)
    (hrun : runLoad env (objs.map Doc.obj) (initState fm) = .ok (sF, evs)) :
    (∀ e ∈ evs, involvesObj o e = false) ∧
    (∀ pre suf, objs = pre ++ suf →
      o ∉ objsOf (processObjs env pre (initState fm)).1.pending) := by
  have hpf : PendingFiltered fm (initState fm).pending := by
    intro q hq
    simp [initState, objsOf] at hq
  have hrun2 := runLoad_map_obj env objs (initState fm)
  rw [hrun] at hrun2
  injection hrun2 with hpair
  constructor
  · intro e he
    have hevs : evs = (processObjs env objs (initState fm)).2 ++
        reportEvents (processObjs env objs (initState fm)).1.pending := by
      have h2 := congrArg Prod.snd hpair
      simpa [runLoadObjs] using h2
    rw [hevs] at he
    rcases List.mem_append.mp he with hm | hm
    · rcases hb : involvesObj o e with _ | _
      · rfl
      · exfalso
        have hft := (processObjs_filtered env objs (initState fm) fm rfl hpf).1 e hm o hb
        rw [hno] at hft
        exact absurd hft (by simp)
    · rcases reportEvents_shape _ e hm with ⟨q, hq⟩
      rw [hq]
      rfl
  · intro pre suf hsplit hmem
    have hft := (processObjs_filtered env pre (initState fm) fm rfl hpf).2 o hmem
    rw [hno] at hft
    exact absurd hft (by simp)

/-- C5 witness: at the concrete out-of-filter input, the object never
enters the pending queue of its own single-object load. -/
theorem claim_C5_witness :
    c5o ∉ objsOf (processObjs c5env [c5o] (initState c5fm)).1.pending :=
  (claim_C5_filtered_never_submitted_nor_queued c5env c5fm c5o [c5o]
      (runLoadObjs c5env [c5o] (initState c5fm)).1
      (runLoadObjs c5env [c5o] (initState c5fm)).2
      (by decide) (runLoad_map_obj c5env [c5o] (initState c5fm))).2 [c5o] [] rfl

/-- C1 (behavior of the code on the chain input): decoding C, B, A in
that order with every create succeeding, the loader submits A first and
then B with B's owner identifier rewritten to A's newly assigned
identifier `uid0`, but C is never submitted to the write client and
instead appears in the end-of-load missing-owner report: the
pending-queue scan runs only for the directly applied object's key and
never re-examines the queue keyed by an object applied during that
scan. -/
theorem claim_C1_chain_third_object_never_applied :
    attemptSrcs c1run.2 = [c1A, c1B] ∧
    Event.createAttempt c1B c1Bsent ∈ c1run.2 ∧
    Event.createdObj c1A "uid0" ∈ c1run.2 ∧
    Event.createdObj c1B "uid1" ∈ c1run.2 ∧
    (∀ e ∈ c1run.2, submitsSrc c1C e = false) ∧
    Event.skippedMissingOwner c1C ∈ c1run.2 := by decide

/-- C8 (amended): an object that passes the filter and has an owner
reference whose identity tuple never becomes present in the
Resolved-Identity Map is never submitted to the write client, and at end
of stream it appears in the missing-owner report at least once — once
per such owner reference, hence possibly more than once when several of
its owners never resolve. -/
theorem claim_C8_unresolved_never_submitted_reported (env : Env) (fm : List GroupKind)
    (objs pre post : List Obj) (X : Obj) (r : OwnerReference) (sF : LoaderState)
    (evs : List Event)
    (hsplit : objs = pre ++ X :: post)
    (hfilter : filterChk fm X = true)
    (hr : r ∈ X.ownerReferences)
    (hrun : runLoad env (objs.map Doc.obj) (initState fm) = .ok (sF, evs))
    (hnever : lookupA sF.exist (uniqueKeyFromOwnerReference r) = none) :
    (∀ e ∈ evs, submitsSrc X e = false) ∧
    Event.skippedMissingOwner X ∈ evs := by
  have hrun2 := runLoad_map_obj env objs (initState fm)
  rw [hrun] at hrun2
  injection hrun2 with hpair
  have hsF : sF = (processObjs env objs (initState fm)).1 := by
    have h2 := congrArg Prod.fst hpair
    simpa [runLoadObjs] using h2
  have hevs : evs = (processObjs env objs (initState fm)).2 ++
      reportEvents (processObjs env objs (initState fm)).1.pending := by
    have h2 := congrArg Prod.snd hpair
    simpa [runLoadObjs] using h2
  have hneverP : lookupA (processObjs env objs (initState fm)).1.exist
      (uniqueKeyFromOwnerReference r) = none := by
    rw [← hsF]
    exact hnever
  have hkeyed0 : PendingOwnersKeyed (initState fm).pending := by
    intro kv hkv
    simp [initState] at hkv
  have hres := (processObjs_resolved env objs (initState fm) hkeyed0).1
  have hsub : ∀ e ∈ evs, submitsSrc X e = false := by
    intro e he
    rw [hevs] at he
    rcases List.mem_append.mp he with hm | hm
    · rcases hb : submitsSrc X e with _ | _
      · rfl
      · exfalso
        have h3 := hres e hm X hb r hr
        rw [hneverP] at h3
        simp at h3
    · rcases reportEvents_shape _ e hm with ⟨q, hq⟩
      rw [hq]
      rfl
  refine ⟨hsub, ?_⟩
  subst hsplit
  have happ := processObjs_append env pre (X :: post) (initState fm)
  have hfm1 : (processObjs env pre (initState fm)).1.filterMap = fm :=
    (processObjs_state env pre (initState fm)).1
  have hfX : filterB (processObjs env pre (initState fm)).1 X = true := by
    unfold filterB filterChk
    rw [hfm1]
    exact hfilter
  have hstep : (processObjs env (X :: post) (processObjs env pre (initState fm)).1).1 =
      (processObjs env post
        (loadObj env (processObjs env pre (initState fm)).1 X).1).1 := by
    simp only [processObjs, hfX, if_true]
  have hfinal : (processObjs env (pre ++ X :: post) (initState fm)).1 =
      (processObjs env post
        (loadObj env (processObjs env pre (initState fm)).1 X).1).1 := by
    rw [happ.1, hstep]
  have hk1 : lookupA (loadObj env (processObjs env pre (initState fm)).1 X).1.exist
      (uniqueKeyFromOwnerReference r) = none := by
    rcases h2 : lookupA (loadObj env (processObjs env pre (initState fm)).1 X).1.exist
        (uniqueKeyFromOwnerReference r) with _ | v
    · rfl
    · exfalso
      have h3 := (processObjs_state env post
        (loadObj env (processObjs env pre (initState fm)).1 X).1).2
        (uniqueKeyFromOwnerReference r) (by simp [h2])
      rw [← hfinal, hneverP] at h3
      simp at h3
  have hk1s : lookupA (processObjs env pre (initState fm)).1.exist
      (uniqueKeyFromOwnerReference r) = none := by
    rcases h2 : lookupA (processObjs env pre (initState fm)).1.exist
        (uniqueKeyFromOwnerReference r) with _ | v
    · rfl
    · exfalso
      have h3 := (loadObj_state env (processObjs env pre (initState fm)).1 X).2
        (uniqueKeyFromOwnerReference r) (by simp [h2])
      rw [hk1] at h3
      simp at h3
  have hdefer := loadObj_defer env (processObjs env pre (initState fm)).1 X r hr hk1s
  have htrans := processObjs_pending_transport env post
    (loadObj env (processObjs env pre (initState fm)).1 X).1
    (uniqueKeyFromOwnerReference r) X hdefer.1 (by rw [← hfinal]; exact hneverP)
  have hreport : Event.skippedMissingOwner X ∈
      reportEvents (processObjs env (pre ++ X :: post) (initState fm)).1.pending := by
    refine mem_reportEvents (k := uniqueKeyFromOwnerReference r) ?_
    rw [hfinal]
    exact htrans
  rw [hevs]
  exact List.mem_append.mpr (Or.inr hreport)

/-- C8 counterexample: the two-owner object passes the filter, neither of
its owner tuples ever enters the Resolved-Identity Map, it is never
submitted, yet it appears in the missing-owner report twice — once per
unresolved owner reference — refuting the claimed "exactly once". -/
theorem claim_C8_counterexample :
    filterChk c8fm c8X = true ∧
    (∀ rr ∈ c8X.ownerReferences,
      lookupA c8run.1.exist (uniqueKeyFromOwnerReference rr) = none) ∧
    (∀ e ∈ c8run.2, submitsSrc c8X e = false) ∧
    c8run.2.count (Event.skippedMissingOwner c8X) = 2 ∧
    ¬(c8run.2.count (Event.skippedMissingOwner c8X) = 1) := by decide

/-- C8 amended-claim witness: the single-owner object whose owner never
appears in the stream is never submitted and is reported missing at
least once. -/
theorem claim_C8_witness :
    (∀ e ∈ c8wrun.2, submitsSrc c8wX e = false) ∧
    Event.skippedMissingOwner c8wX ∈ c8wrun.2 :=
  claim_C8_unresolved_never_submitted_reported c8env c8wfm [c8wX] [] [] c8wX c8wr
    c8wrun.1 c8wrun.2 rfl (by decide) (by decide)
    (runLoad_map_obj c8env [c8wX] (initState c8wfm)) (by decide)

/-- C6 witness: at concrete inputs, a conflicting update abandons the
object with a warning, and a failing create abandons it with an error;
neither failure makes Load return an error. -/
theorem claim_C6_witness :
    ((applyModel c6envConflict 0 c6src c6src).1 = none ∧
      Event.conflictSkipped c6src ∈ (applyModel c6envConflict 0 c6src c6src).2) ∧
    ((applyModel c6envError 0 c6src c6src).1 = none ∧
      Event.errorSkipped c6src ∈ (applyModel c6envError 0 c6src c6src).2) ∧
    (runLoad c6envConflict [Doc.obj c6src] (initState [⟨"", "KA"⟩])).isOk = true :=
  ⟨(claim_C6_apply_error_contract.1 c6envConflict 0 c6src c6src).2.2.2.2.1 rfl,
   (claim_C6_apply_error_contract.1 c6envError 0 c6src c6src).2.2.2.2.2 (Or.inl rfl),
   claim_C6_apply_error_contract.2.1 c6envConflict [c6src] (initState [⟨"", "KA"⟩])⟩

end KwokLoad

namespace KwokDyn

theorem raceGets_matched {T O : Type} (convert : List T → O) (latestVer : String)
    (n : Nat) (s : GetterState T O) (h : latestVer = s.currentVer) :
    raceGets convert latestVer n s = (s, 0) := by
  subst h
  induction n with
  | zero => rfl
  | succ m ih => simp [raceGets, updateAndReturn, ih]

/-- C3: `Get` runs the conversion function only when the feed's last
observed version token differs from the version the cached value was
computed under, and the comparison is re-checked after acquiring
exclusive access: a match at either check returns the stored value, runs
no conversion, and leaves the stored value and version unchanged. -/
theorem claim_C3_get_recomputes_only_on_version_change {T O : Type}
    (convert : List T → O) (latestVer : String)
    (interfere : GetterState T O → GetterState T O) (s : GetterState T O) :
    (latestVer = s.currentVer →
      getOp convert latestVer interfere s = (s.data, s, false)) ∧
    (latestVer ≠ s.currentVer → latestVer = (interfere s).currentVer →
      getOp convert latestVer interfere s = ((interfere s).data, interfere s, false)) ∧
    ((getOp convert latestVer interfere s).2.2 = true →
      latestVer ≠ s.currentVer ∧ latestVer ≠ (interfere s).currentVer) := by
  refine ⟨?_, ?_, ?_⟩
  · intro h
    simp [getOp, h]
  · intro h1 h2
    unfold getOp
    rw [if_neg h1]
    unfold updateAndReturn
    rw [if_pos h2]
  · intro h
    by_cases h1 : latestVer = s.currentVer
    · simp [getOp, h1] at h
    · by_cases h2 : latestVer = (interfere s).currentVer
      · exfalso
        unfold getOp at h
        rw [if_neg h1] at h
        unfold updateAndReturn at h
        rw [if_pos h2] at h
        simp at h
      · exact ⟨h1, h2⟩

/-- C3 witness: at concrete states, a version match on the fast path and
a version match on the re-check both return the cached value unchanged
with no conversion. -/
theorem claim_C3_witness :
    getOp (List.sum (α := Nat)) "v0" id ⟨"v0", 7, [1, 2]⟩ =
      (7, ⟨"v0", 7, [1, 2]⟩, false) ∧
    getOp (List.sum (α := Nat)) "v1"
        (fun gs => { gs with currentVer := "v1" }) ⟨"v0", 7, [1, 2]⟩ =
      (7, ⟨"v1", 7, [1, 2]⟩, false) :=
  ⟨(claim_C3_get_recomputes_only_on_version_change List.sum "v0" id
      ⟨"v0", 7, [1, 2]⟩).1 rfl,
   (claim_C3_get_recomputes_only_on_version_change List.sum "v1"
      (fun gs => { gs with currentVer := "v1" }) ⟨"v0", 7, [1, 2]⟩).2.1
     (by decide) rfl⟩

/-- C4: N `Get` calls that all observed the same version transition and
serialize through the write lock execute the conversion function exactly
once between them, however large N is. -/
theorem claim_C4_single_recomputation {T O : Type} (convert : List T → O)
    (latestVer : String) (n : Nat) (s : GetterState T O)
    (hn : 0 < n) (hv : latestVer ≠ s.currentVer) :
    (raceGets convert latestVer n s).2 = 1 := by
  rcases n with _ | m
  · exact absurd hn (by simp)
  · have h1 : updateAndReturn convert latestVer s =
        (convert s.store,
          { s with data := convert s.store, currentVer := latestVer }, true) := by
      simp [updateAndReturn, hv]
    simp [raceGets, h1, raceGets_matched]

/-- C4 witness: three racing slow-path `Get` calls over a stale state run
the conversion exactly once. -/
theorem claim_C4_witness :
    (raceGets (List.sum (α := Nat)) "v1" 3 ⟨"v0", 0, [5]⟩).2 = 1 :=
  claim_C4_single_recomputation List.sum "v1" 3 ⟨"v0", 0, [5]⟩ (by decide) (by decide)

/-- C2 (behavior of the code at the failing input): `Start` establishes an
empty mirror, spawns the informer in the background, and returns the
store's `Resync` result, which always succeeds without waiting for any
synchronization; hence the schedule in which a caller invokes `Get`
before the background task has run is allowed, and that first `Get`
returns the zero-valued derived data rather than a value computed from a
synchronized mirror (here the synchronized feed would yield 5). -/
theorem claim_C2_start_returns_before_sync :
    storeResync = .ok () ∧
    startModel (T := Nat) (O := Nat) 0 = .ok ⟨"", ⟨"", 0, []⟩⟩ ∧
    (⟨"", ⟨"", 0, []⟩⟩ : CacheWorld Nat Nat).gs.store = [] ∧
    (runSched (List.sum (α := Nat)) [5] "v1" [.get] ⟨"", ⟨"", 0, []⟩⟩).1 = [0] ∧
    (runSched (List.sum (α := Nat)) [5] "v1" [.bg, .get] ⟨"", ⟨"", 0, []⟩⟩).1 = [5] ∧
    (0 : Nat) ≠ 5 := by
  refine ⟨rfl, rfl, rfl, ?_, ?_, by decide⟩
  · rfl
  · rfl

end KwokDyn
